import Mathlib

/-!
Verification of the succinct-tree library (BP and LOUDS facades over a
Range-Min-Max structure and a Rank/Select index).

The Rust sources are shallowly embedded: bit vectors become `List Bool`,
`u64`/`i64` arithmetic becomes `Nat`/`Int` (the `as u64` casts in the source
are bijective on the values that occur; `u64` subtractions that can wrap are
modelled with truncated `Nat` subtraction and noted where they matter),
fallible operations return `Except`, and a surrounding `Option` marks
executions that panic in Rust (out-of-range vector indexing, `unwrap` of
`None`, arithmetic aborts, non-terminating loops).  The external
`bio::data_structures::rank_select::RankSelect` collaborator is modelled by
its documented contract: `rank_b(i)` counts bits equal to `b` in `B[0..=i]`
(`None` for `i ≥ len`), and `select_b(k)` is the least `i` with
`rank_b(i) = k` (`None` if no such index exists).
-/

namespace SuccinctTrees

/-- `+1` for an opening bit, `-1` for a closing bit. -/
def bDelta (b : Bool) : Int := if b then 1 else -1

/-- Total excess of a bit list (number of opens minus number of closes). -/
def excL : List Bool → Int
  | [] => 0
  | b :: r => bDelta b + excL r

/-- Excess after the first `k` bits; the spec's `E(i)` is `exc l (i+1)`. -/
def exc (l : List Bool) (k : Nat) : Int := excL (l.take k)

/-- Error type of `common/errors.rs` (`NodeError`). -/
inductive NodeError where
  | notANode
  | notALeaf
  | notAParent
  | rootNode
  | noSibling
  | hasNoParent
  | hasNoFurtherSiblings
  | noLabel
  | noSuchChild
deriving DecidableEq, Repr

/-- Error of `from_bitvec` (`InvalidBitvecError`). -/
inductive InvalidBitvecError where
  | invalidBitvec
deriving DecidableEq, Repr

/-- Loop body of `SuccinctTree::is_valid` (`common/succinct_tree.rs`):
`excess` is updated by each bit; the function returns `false` as soon as the
excess is `0` strictly before the last index, and finally checks that the
excess ends at `0`. -/
def isValidGo (len : Nat) : List Bool → Int → Nat → Bool
  | [], e, _ => decide (e = 0)
  | b :: rest, e, i =>
    if e + bDelta b = 0 ∧ i < len - 1 then false
    else isValidGo len rest (e + bDelta b) (i + 1)

/-- `SuccinctTree::is_valid` of `common/succinct_tree.rs`. -/
def isValid (l : List Bool) : Bool := isValidGo l.length l 0 0

/-- The bio crate's `rank_b(i)`: number of bits equal to `b` among
`B[0..=i]`, `none` for `i ≥ len` (external collaborator, modelled by its
contract). -/
def bioRank (b : Bool) (l : List Bool) (i : Nat) : Option Nat :=
  if i < l.length then some ((l.take (i + 1)).count b) else none

/-- The bio crate's `select_b(k)`: least index `i` with `rank_b(i) = k`,
`none` if there is none (external collaborator, modelled by its contract). -/
def bioSelect (b : Bool) (l : List Bool) (k : Nat) : Option Nat :=
  (List.range l.length).find? (fun i => (l.take (i + 1)).count b = k)

end SuccinctTrees

namespace SuccinctTrees

/-- Node of the Range-Min-Max heap (`MinMaxNode` of `common/min_max.rs`). -/
structure MinMaxNode where
  excess : Int
  minExcess : Int
  numberMinExcess : Nat
  maxExcess : Int
  bitsForNode : Nat
deriving DecidableEq, Repr

/-- The all-zero node (`MinMaxNode::default()`), used for padding leaves. -/
def MinMaxNode.default0 : MinMaxNode := ⟨0, 0, 0, 0, 0⟩

/-- One iteration of the per-block scan in `MinMax::new` (the
`number_min_excess != 0` branch): state is
`(excess, min_excess, number_min_excess, max_excess)`. -/
def blockStep (s : Int × Int × Nat × Int) (b : Bool) : Int × Int × Nat × Int :=
  if b then
    let e2 := s.1 + 1
    (e2, s.2.1, s.2.2.1, if s.2.2.2 < e2 then e2 else s.2.2.2)
  else
    let e2 := s.1 - 1
    if e2 = s.2.1 then (e2, s.2.1, s.2.2.1 + 1, s.2.2.2)
    else if e2 < s.2.1 then (e2, e2, 1, s.2.2.2)
    else (e2, s.2.1, s.2.2.1, s.2.2.2)

/-- Summary a leaf of the heap stores for one block: the per-block scan of
`MinMax::new` initialises the state from the first bit of the block and then
iterates `blockStep`; a block past the end of the data keeps the all-zero
default. -/
def blockSummary (l : List Bool) : MinMaxNode :=
  match l with
  | [] => MinMaxNode.default0
  | b :: rest =>
    let init : Int × Int × Nat × Int := if b then (1, 1, 1, 1) else (-1, -1, 1, -1)
    let s := rest.foldl blockStep init
    ⟨s.1, s.2.1, s.2.2.1, s.2.2.2, l.length⟩

/-- Parent combination of `MinMax::new` (the bottom-up, right-to-left fold
over internal heap indices): when the right child is empty
(`number_min_excess == 0`) the parent copies the left child verbatim. -/
def combine (l r : MinMaxNode) : MinMaxNode :=
  if 0 < r.numberMinExcess then
    { excess := l.excess + r.excess
      minExcess := min (l.excess + r.minExcess) l.minExcess
      numberMinExcess :=
        if l.excess + r.minExcess = l.minExcess then l.numberMinExcess + r.numberMinExcess
        else if l.excess + r.minExcess < l.minExcess then r.numberMinExcess
        else l.numberMinExcess
      maxExcess := max (l.excess + r.maxExcess) l.maxExcess
      bitsForNode := l.bitsForNode + r.bitsForNode }
  else l

/-- The Range-Min-Max structure (`MinMax` of `common/min_max.rs`); the heap
is represented through `MinMax.heapGet` below. -/
structure MinMax where
  bits : List Bool
  blockSize : Nat

/-- `number_of_blocks` in `MinMax::new`. -/
def MinMax.numberOfBlocks (m : MinMax) : Nat :=
  if m.bits.length % m.blockSize ≠ 0 then m.bits.length / m.blockSize + 1
  else m.bits.length / m.blockSize

/-- `max_blocks = 2^(ceil(log2(number_of_blocks)))` in `MinMax::new`; the
floating-point formula of the source is exact on the integers that occur
(`log2` of `0.0` casts to `0`, powers of two are represented exactly), so it
equals `2 ^ Nat.clog 2 _`. -/
def MinMax.maxBlocks (m : MinMax) : Nat := 2 ^ Nat.clog 2 m.numberOfBlocks

/-- `heap_size = max_blocks * 2 - 1` in `MinMax::new`. -/
def MinMax.heapLen (m : MinMax) : Nat := 2 * m.maxBlocks - 1

/-- The bits of block `i` (the slice scanned into leaf `max_blocks - 1 + i`). -/
def MinMax.blockOf (m : MinMax) (i : Nat) : List Bool :=
  (m.bits.drop (i * m.blockSize)).take m.blockSize

theorem MinMax.maxBlocks_pos (m : MinMax) : 0 < m.maxBlocks := Nat.pos_pow_of_pos _ (by omega)

theorem MinMax.heapLen_div2 (m : MinMax) : m.heapLen / 2 = m.maxBlocks - 1 := by
  have h := m.maxBlocks_pos
  unfold MinMax.heapLen
  omega

/-- The heap array of `MinMax::new`: leaves (indices `≥ max_blocks - 1`)
hold block summaries, and the bottom-up right-to-left fold fills each
internal index from its (already final) children — which is exactly this
recursion. -/
def MinMax.heapGet (m : MinMax) (i : Nat) : MinMaxNode :=
  if h : m.maxBlocks - 1 ≤ i then blockSummary (m.blockOf (i - (m.maxBlocks - 1)))
  else combine (m.heapGet (2 * i + 1)) (m.heapGet (2 * i + 2))
termination_by m.maxBlocks - i
decreasing_by all_goals omega

/-- The ascending accumulation loop of `MinMax::excess`: climbing from heap
index `hn` to the root, add the `excess` of the left sibling whenever the
current node is a right child (even index). -/
def MinMax.preExcess (m : MinMax) (hn : Nat) : Int :=
  if hn = 0 then 0
  else
    let p := (hn - 1) / 2
    if hn % 2 = 0 then (m.heapGet (2 * p + 1)).excess + m.preExcess p
    else m.preExcess p
termination_by hn
decreasing_by all_goals omega

/-- `MinMax::excess`: out-of-range indices fail with `NotANodeError`;
otherwise the result is the climb accumulation plus a linear scan of the
containing block from its start up to `index` (the source casts the sum
`as u64`; the cast is injective on the values that occur, so the `Int`
result is kept). -/
def MinMax.excessQ (m : MinMax) (index : Nat) : Except NodeError Int :=
  if m.bits.length ≤ index then .error .notANode
  else
    let blockNumber := index / m.blockSize
    let pre := m.preExcess (blockNumber + m.heapLen / 2)
    let blockE := excL ((m.bits.drop (blockNumber * m.blockSize)).take (index - blockNumber * m.blockSize + 1))
    .ok (pre + blockE)

/-- In-block scan of `MinMax::fwd_search`: while `position < end_of_block - 1`,
advance, update the running excess by the next bit and stop when it reaches
`target` (`diff - 1`).  Result `(found, position, excess)`; `none` models the
panic of an out-of-range bit read. -/
def fwdScan (bits : List Bool) (endOfBlock : Nat) (target : Int) (p : Nat) (ce : Int) :
    Option (Bool × Nat × Int) :=
  if p < endOfBlock - 1 then
    match bits[p + 1]? with
    | none => none
    | some b =>
      let ce2 := ce + bDelta b
      if ce2 = target then some (true, p + 1, ce2)
      else fwdScan bits endOfBlock target (p + 1) ce2
  else some (false, p, ce)
termination_by endOfBlock - 1 - p
decreasing_by all_goals omega

/-- Bottom-up phase of `MinMax::fwd_search`: climb from `cn`; at a left
child, inspect the right sibling `cn + 1` and switch to top-down when the
residual target lies within its `[min_excess, max_excess]`, else deduct its
`excess` and continue climbing.  `none` means the root was reached with the
search still ascending. -/
def MinMax.fwdBottomUp (m : MinMax) (cn : Nat) (cd : Int) : Option (Nat × Int) :=
  if cn = 0 then none
  else if cn % 2 = 0 then m.fwdBottomUp ((cn - 1) / 2) cd
  else
    let sib := cn + 1
    if cd ≤ (m.heapGet sib).maxExcess ∧ (m.heapGet sib).minExcess ≤ cd then some (sib, cd)
    else m.fwdBottomUp ((sib - 1) / 2) (cd - (m.heapGet sib).excess)
termination_by cn
decreasing_by all_goals omega

/-- Top-down phase of `MinMax::fwd_search`: descend into the left child when
the residual target lies in its range, else deduct its `excess` and go
right; stop at a leaf (`cn ≥ heap.len() / 2`). -/
def MinMax.fwdTopDown (m : MinMax) (cn : Nat) (cd : Int) : Nat × Int :=
  if m.heapLen / 2 ≤ cn then (cn, cd)
  else
    let lc := 2 * cn + 1
    if cd ≤ (m.heapGet lc).maxExcess ∧ (m.heapGet lc).minExcess ≤ cd then
      m.fwdTopDown lc cd
    else m.fwdTopDown (2 * cn + 2) (cd - (m.heapGet lc).excess)
termination_by m.maxBlocks - cn
decreasing_by all_goals { have := m.heapLen_div2; have := m.maxBlocks_pos; omega }

/-- Final block scan of `MinMax::fwd_search` (note the inverted signs: the
residual is driven to `0`); returns the final position together with the
`found` flag — the source returns the position even when the scan fell off
the block end.  `none` models an out-of-range bit read. -/
def fwdBlockScan (bits : List Bool) (endT : Nat) (p : Nat) (cd : Int) : Option (Bool × Nat) :=
  if p < endT then
    match bits[p]? with
    | none => none
    | some b =>
      let cd2 := cd - bDelta b
      if cd2 = 0 then some (true, p)
      else fwdBlockScan bits endT (p + 1) cd2
  else some (false, p)
termination_by endT - p
decreasing_by all_goals omega

/-- `MinMax::fwd_search`.  The source's `Result` is always `Ok`; `none`
models the panics: an out-of-range bit read, and — when the climb reaches
the root without a trigger while the heap is non-trivial — the `usize`
underflow of `current_node - heap.len() / 2` (with a trivial heap that
expression is `0` and `Ok(0)` is returned, the block scan being skipped). -/
def MinMax.fwdSearch (m : MinMax) (index : Nat) (diff : Int) : Option Nat :=
  let endOfBlock := (index / m.blockSize) * m.blockSize + m.blockSize
  match fwdScan m.bits endOfBlock (diff - 1) index 0 with
  | none => none
  | some (true, pos, _) => some pos
  | some (false, _, ce) =>
    let cd := diff - 1 - ce
    match m.fwdBottomUp (m.heapLen / 2 + index / m.blockSize) cd with
    | none => if m.heapLen / 2 = 0 then some 0 else none
    | some (sib, cd2) =>
      let r := m.fwdTopDown sib cd2
      let blockStart := (r.1 - m.heapLen / 2) * m.blockSize
      match fwdBlockScan m.bits (blockStart + m.blockSize) blockStart r.2 with
      | none => none
      | some (_, pos) => some pos

/-- In-block backward scan of `MinMax::bwd_search`: while `position > begin`,
remove the bit at `position` from the running excess, decrement, and stop
when the excess reaches `index_excess + diff`. -/
def bwdScan (bits : List Bool) (beginB : Nat) (target : Int) (p : Nat) (ce : Int) :
    Option (Bool × Nat × Int) :=
  if beginB < p then
    match bits[p]? with
    | none => none
    | some b =>
      let ce2 := ce - bDelta b
      if ce2 = target then some (true, p - 1, ce2)
      else bwdScan bits beginB target (p - 1) ce2
  else some (false, p, ce)
termination_by p
decreasing_by all_goals omega

/-- Bottom-up phase of `MinMax::bwd_search`: at a right child (even index),
inspect the left sibling `cn - 1` against the negated residual `-look_for`,
else add its `excess` to `look_for`; `none` means the root was reached with
the climb still going. -/
def MinMax.bwdBottomUp (m : MinMax) (cn : Nat) (lookFor : Int) : Option (Nat × Int) :=
  if cn = 0 then none
  else if cn % 2 = 0 then
    let sib := cn - 1
    if -1 * lookFor ≤ (m.heapGet sib).maxExcess ∧ (m.heapGet sib).minExcess ≤ -1 * lookFor then
      some (sib, lookFor)
    else m.bwdBottomUp ((cn - 1) / 2) (lookFor + (m.heapGet sib).excess)
  else m.bwdBottomUp ((cn - 1) / 2) lookFor
termination_by cn
decreasing_by all_goals omega

/-- Top-down phase of `MinMax::bwd_search`: prefers the right child whenever
`max_excess - min_excess ≥ |look_for|`, else the left one; when neither test
holds the source's loop spins forever (its `todo` branch), which exhausting
the fuel models — `heapLen` iterations suffice for every terminating run
since the loop strictly descends. -/
def MinMax.bwdTopDown (m : MinMax) : Nat → Nat → Int → Option Nat
  | 0, _, _ => none
  | fuel + 1, cn, lookFor =>
    if m.heapLen / 2 ≤ cn then some cn
    else
      let rc := m.heapGet (2 * cn + 2)
      let lc := m.heapGet (2 * cn + 1)
      if |lookFor| ≤ rc.maxExcess - rc.minExcess then m.bwdTopDown fuel (2 * cn + 2) lookFor
      else if |lookFor| ≤ lc.maxExcess - lc.minExcess then m.bwdTopDown fuel (2 * cn + 1) lookFor
      else none

/-- Final block scan of `MinMax::bwd_search`: starts at
`begin + block_size - 1`, reads `bits[position + 1]` and walks down; `none`
models the out-of-range read and the `u64` underflow of `position -= 1` at
position `0`. -/
def bwdBlockScan (bits : List Bool) (beginB : Nat) (p : Nat) (lookFor : Int) :
    Option (Bool × Nat) :=
  if beginB ≤ p then
    match bits[p + 1]? with
    | none => none
    | some b =>
      let lf2 := lookFor + bDelta b
      if lf2 = 0 then some (true, p)
      else if p = 0 then none
      else bwdBlockScan bits beginB (p - 1) lf2
  else some (false, p)
termination_by p
decreasing_by all_goals omega

/-- `MinMax::bwd_search`.  When nothing is found the source returns the
sentinel `Ok(10000000)` (its `todo` comments mark the missing error path);
`none` models panics. -/
def MinMax.bwdSearch (m : MinMax) (index : Nat) (diff : Int) : Option Nat :=
  let blockNo := index / m.blockSize
  let beginOfBlock := blockNo * m.blockSize
  match m.excessQ index with
  | .error _ => none
  | .ok indexExcess =>
    match bwdScan m.bits beginOfBlock (indexExcess + diff) index indexExcess with
    | none => none
    | some (true, pos, _) => some pos
    | some (false, _, ce) =>
      let lookFor := diff + indexExcess - ce
      match m.bwdBottomUp (m.heapLen / 2 + blockNo) lookFor with
      | none => some 10000000
      | some (sib, lf2) =>
        match m.bwdTopDown m.heapLen sib lf2 with
        | none => none
        | some leafN =>
          let begin2 := (leafN - m.heapLen / 2) * m.blockSize
          match bwdBlockScan m.bits begin2 (begin2 + m.blockSize - 1) lf2 with
          | none => none
          | some (true, pos) => some pos
          | some (false, _) => some 10000000

/-- `MinMax::find_close`. -/
def MinMax.findClose (m : MinMax) (index : Nat) : Option Nat := m.fwdSearch index 0

/-- `MinMax::enclose` — note the source passes `diff = 1`. -/
def MinMax.enclose (m : MinMax) (index : Nat) : Option Nat := m.bwdSearch index 1

end SuccinctTrees

namespace SuccinctTrees

/-- `MinMax::ones_for_node`: `(bits_for_node + excess) / 2` — the number of
one bits under a heap node (integer division; on the values that occur the
operand is a non-negative even number, so all division conventions agree). -/
def MinMax.onesForNode (m : MinMax) (hi : Nat) : Int :=
  ((m.heapGet hi).bitsForNode + (m.heapGet hi).excess) / 2

/-- Leaf scan shared by `select_1_recursive` / `select_0_recursive`: walk the
block left to right; while the remaining rank is positive, every bit equal
to `want` consumes one unit of rank and records its index. -/
def selScanGo (want : Bool) : List Bool → Nat → Int → Int → Int
  | [], _, _, idx => idx
  | b :: rest, bi, remaining, idx =>
    if b = want ∧ 0 < remaining then selScanGo want rest (bi + 1) (remaining - 1) ↑bi
    else selScanGo want rest (bi + 1) remaining idx

/-- `MinMax::select_1_recursive`: at a leaf scan its block (the loop bound
`begin + bits_for_node` keeps the reads in range by construction); at an
internal node descend left when it holds at least `rank` ones, else right
with the rank reduced. -/
def MinMax.select1Go (m : MinMax) (rank : Int) (hi : Nat) : Int :=
  if m.heapLen / 2 ≤ hi then
    let blockNo := hi - m.heapLen / 2
    let beginB := blockNo * m.blockSize
    selScanGo true ((m.bits.drop beginB).take (m.heapGet hi).bitsForNode) beginB rank ↑beginB
  else
    let no := m.onesForNode (2 * hi + 1)
    if rank ≤ no then m.select1Go rank (2 * hi + 1)
    else m.select1Go (rank - no) (2 * hi + 2)
termination_by m.maxBlocks - hi
decreasing_by all_goals { have := m.heapLen_div2; have := m.maxBlocks_pos; omega }

/-- `MinMax::select_0_recursive`: as `select1Go`, counting zeros on the left
as `bits_for_node - ones_for_node`. -/
def MinMax.select0Go (m : MinMax) (rank : Int) (hi : Nat) : Int :=
  if m.heapLen / 2 ≤ hi then
    let blockNo := hi - m.heapLen / 2
    let beginB := blockNo * m.blockSize
    selScanGo false ((m.bits.drop beginB).take (m.heapGet hi).bitsForNode) beginB rank ↑beginB
  else
    let nz := ((m.heapGet (2 * hi + 1)).bitsForNode : Int) - m.onesForNode (2 * hi + 1)
    if rank ≤ nz then m.select0Go rank (2 * hi + 1)
    else m.select0Go (rank - nz) (2 * hi + 2)
termination_by m.maxBlocks - hi
decreasing_by all_goals { have := m.heapLen_div2; have := m.maxBlocks_pos; omega }

/-- `MinMax::select_1`: ranks above `bits_len / 2` are rejected, everything
else is delegated to the recursion (whose non-negative result the source
casts `as u64`). -/
def MinMax.select1 (m : MinMax) (rank : Nat) : Except NodeError Nat :=
  if m.bits.length / 2 < rank then .error .notANode
  else .ok (m.select1Go ↑rank 0).toNat

/-- `MinMax::select_0`. -/
def MinMax.select0 (m : MinMax) (rank : Nat) : Except NodeError Nat :=
  if m.bits.length / 2 < rank then .error .notANode
  else .ok (m.select0Go ↑rank 0).toNat

/-- The BP facade (`BPTree` of `bp_tree.rs`): a Rank/Select index and a
`MinMax` share the bit sequence (kept once here), plus a label list; labels
take part in no equality. -/
structure BPTree (L : Type) where
  labels : List L
  bits : List Bool

/-- The `MinMax` member of a `BPTree`: built over the same bits with block
size `1024`. -/
def BPTree.minmax {L : Type} (t : BPTree L) : MinMax := ⟨t.bits, 1024⟩

/-- `BPTree::is_valid_index`. -/
def BPTree.isValidIndex {L : Type} (t : BPTree L) (index : Nat) : Except NodeError Bool :=
  if t.bits.length ≤ index then .error .notANode else .ok true

/-- `BPTree::is_leaf`: reads `bits[index + 1]`, whose out-of-range access at
the last position panics (`none`). -/
def BPTree.isLeaf {L : Type} (t : BPTree L) (index : Nat) : Option (Except NodeError Bool) :=
  match t.isValidIndex index with
  | .error e => some (.error e)
  | .ok _ =>
    match t.bits[index + 1]? with
    | none => none
    | some b => some (.ok (!b))

/-- `BPTree::parent`: `enclose` for non-root indices. -/
def BPTree.parent {L : Type} (t : BPTree L) (index : Nat) : Option (Except NodeError Nat) :=
  if t.bits.length ≤ index then some (.error .notANode)
  else if index = 0 then some (.error .hasNoParent)
  else
    match t.minmax.enclose index with
    | none => none
    | some v => some (.ok v)

/-- `BPTree::first_child`. -/
def BPTree.firstChild {L : Type} (t : BPTree L) (index : Nat) : Option (Except NodeError Nat) :=
  match t.isLeaf index with
  | none => none
  | some (.error e) => some (.error e)
  | some (.ok true) => some (.error .notAParent)
  | some (.ok false) => some (.ok (index + 1))

/-- `BPTree::next_sibling`: computes both `parent(index)` and
`parent(find_close(index) + 1)` and fails with `NoSiblingError` when they
differ. -/
def BPTree.nextSibling {L : Type} (t : BPTree L) (index : Nat) : Option (Except NodeError Nat) :=
  match t.parent index with
  | none => none
  | some (.error e) => some (.error e)
  | some (.ok pa) =>
    match t.minmax.findClose index with
    | none => none
    | some fc =>
      let sibling := fc + 1
      match t.parent sibling with
      | none => none
      | some (.error e) => some (.error e)
      | some (.ok pb) =>
        if pa = pb then some (.ok sibling) else some (.error .noSibling)

/-- `BPTree::pre_rank` — the bio crate's `rank_1`. -/
def BPTree.preRank {L : Type} (t : BPTree L) (index : Nat) : Option Nat :=
  bioRank true t.bits index

/-- `BPTree::pre_select` — the bio crate's `select_1`. -/
def BPTree.preSelect {L : Type} (t : BPTree L) (rank : Nat) : Option Nat :=
  bioSelect true t.bits rank

/-- `BPTree::child_label`: looks up `labels[pre_rank(index) - 1]`; the `u64`
wrap-around of `- 1` at rank `0` is modelled by truncated subtraction, which
gives the same failing lookup on the empty label lists that occur here. -/
def BPTree.childLabel {L : Type} (t : BPTree L) (index : Nat) : Option (Except NodeError L) :=
  match t.isValidIndex index with
  | .error e => some (.error e)
  | .ok _ =>
    match t.preRank index with
    | none => none
    | some r =>
      match t.labels[r - 1]? with
      | none => some (.error .noLabel)
      | some lab => some (.ok lab)

/-- `BPTree::ancestor`. -/
def BPTree.ancestor {L : Type} (t : BPTree L) (x y : Nat) : Option (Except NodeError Bool) :=
  if t.bits.length ≤ x then some (.error .notANode)
  else if t.bits.length ≤ y then some (.error .notANode)
  else
    match t.minmax.findClose x with
    | none => none
    | some fc => some (.ok (decide (x ≤ y ∧ y ≤ fc)))

/-- `BPTree::depth`. -/
def BPTree.depth {L : Type} (t : BPTree L) (index : Nat) : Except NodeError Int :=
  if t.bits.length ≤ index then .error .notANode
  else t.minmax.excessQ index

/-- `BPTree::subtree_size`. -/
def BPTree.subtreeSize {L : Type} (t : BPTree L) (index : Nat) : Option (Except NodeError Nat) :=
  if t.bits.length ≤ index then some (.error .notANode)
  else
    match t.minmax.findClose index with
    | none => none
    | some fc => some (.ok ((fc - index + 1) / 2))

/-- `BPTree::from_bitvec`: gate on `is_valid`; the label vector starts
empty. -/
def BPTree.fromBitvec {L : Type} (l : List Bool) : Except InvalidBitvecError (BPTree L) :=
  if isValid l = true then .ok ⟨[], l⟩ else .error .invalidBitvec

/-- `BPTree::save_to` serializes only the Rank/Select member; persistence
and the bincode serializer are external collaborators, so the persisted
stream is modelled by the serializer's input — the Rank/Select core, i.e.
its bit sequence. -/
def BPTree.save {L : Type} (t : BPTree L) : List Bool := t.bits

/-- `BPTree::from_file`: deserializes the Rank/Select core, rebuilds the
`MinMax` over its bits and allocates a fresh empty label list. -/
def BPTree.load {L : Type} (s : List Bool) : BPTree L := ⟨[], s⟩

/-- `PartialEq for BPTree`: equality of facades compares only the underlying
bit sequences. -/
def BPTree.beq {L : Type} (a b : BPTree L) : Bool := a.bits == b.bits

/-- The LOUDS facade (`LOUDSTree` of `louds_tree.rs`). -/
structure LOUDSTree (L : Type) where
  labels : List L
  bits : List Bool

/-- `LOUDSTree::is_leaf`: positions out of range, position `0`, and a zero
bit preceded by a one bit are rejected as `NotANodeError`; otherwise the
node is a leaf iff its bit is zero. -/
def LOUDSTree.isLeaf {L : Type} (t : LOUDSTree L) (index : Nat) : Except NodeError Bool :=
  if t.bits.length ≤ index ∨ index = 0 ∨
      (t.bits.getD index false = false ∧ t.bits.getD (index - 1) false = true) then
    .error .notANode
  else .ok (!t.bits.getD index false)

/-- `LOUDSTree::prev_0`: `select_0(rank_0(index))`. -/
def LOUDSTree.prev0 {L : Type} (t : LOUDSTree L) (i : Nat) : Option Nat :=
  match bioRank false t.bits i with
  | none => none
  | some r => bioSelect false t.bits r

/-- `LOUDSTree::next_0`: `select_0(rank_0(index) + 1)`. -/
def LOUDSTree.next0 {L : Type} (t : LOUDSTree L) (i : Nat) : Option Nat :=
  match bioRank false t.bits i with
  | none => none
  | some r => bioSelect false t.bits (r + 1)

/-- `LOUDSTree::parent`: `prev_0(select_1(rank_0(index))) + 1` behind the
index checks; the three `unwrap`s panic (`none`) when a lookup fails. -/
def LOUDSTree.parent {L : Type} (t : LOUDSTree L) (index : Nat) : Option (Except NodeError Nat) :=
  if t.bits.length ≤ index ∨ index = 0 then some (.error .notANode)
  else if index = 1 then some (.error .rootNode)
  else
    match bioRank false t.bits index with
    | none => none
    | some r0 =>
      match bioSelect true t.bits r0 with
      | none => none
      | some y =>
        match t.prev0 y with
        | none => none
        | some p => some (.ok (p + 1))

/-- `LOUDSTree::child`: `select_0(rank_1(index) + n - 2) + 1`; the `u64`
wrap of `rank_1 + n - 2` below `2` produces an astronomically large rank,
for which `select_0` is `none`. -/
def LOUDSTree.child {L : Type} (t : LOUDSTree L) (index n : Nat) : Option Nat :=
  match bioRank true t.bits index with
  | none => none
  | some r1 =>
    if r1 + n < 2 then none
    else
      match bioSelect false t.bits (r1 + n - 2) with
      | none => none
      | some s => some (s + 1)

/-- `LOUDSTree::first_child`: `child(index, 1)` unless the node is a leaf;
the `unwrap` of `child` panics (`none`) when the lookup fails. -/
def LOUDSTree.firstChild {L : Type} (t : LOUDSTree L) (index : Nat) :
    Option (Except NodeError Nat) :=
  match t.isLeaf index with
  | .error e => some (.error e)
  | .ok true => some (.error .notAParent)
  | .ok false =>
    match t.child index 1 with
    | none => none
    | some c => some (.ok c)

/-- `LOUDSTree::degree`: `next_0(index) - index` for non-leaves, `0` for
leaves; a failing `next_0` is turned into `NotANodeError` by `ok_or`. -/
def LOUDSTree.degree {L : Type} (t : LOUDSTree L) (index : Nat) : Except NodeError Nat :=
  match t.isLeaf index with
  | .error e => .error e
  | .ok true => .ok 0
  | .ok false =>
    match t.next0 index with
    | none => .error .notANode
    | some n0 => .ok (n0 - index)

/-- `LOUDSTree::child_rank`: `0` for indices `≤ 1`, else
`y - prev_0(y)` with `y = select_1(rank_0(index - 1))`. -/
def LOUDSTree.childRank {L : Type} (t : LOUDSTree L) (index : Nat) : Option Nat :=
  if index ≤ 1 then some 0
  else
    match bioRank false t.bits (index - 1) with
    | none => none
    | some r0 =>
      match bioSelect true t.bits r0 with
      | none => none
      | some y =>
        match t.prev0 y with
        | none => none
        | some p => some (y - p)

/-- `LOUDSTree::next_sibling`: candidate `select_0(rank_0(index - 1) + 1) + 1`,
validated by comparing parents. -/
def LOUDSTree.nextSibling {L : Type} (t : LOUDSTree L) (index : Nat) :
    Option (Except NodeError Nat) :=
  match t.parent index with
  | none => none
  | some (.error e) => some (.error e)
  | some (.ok pa) =>
    match bioRank false t.bits (index - 1) with
    | none => none
    | some r0 =>
      match bioSelect false t.bits (r0 + 1) with
      | none => none
      | some s0 =>
        let sibling := s0 + 1
        match t.parent sibling with
        | none => none
        | some (.error e) => some (.error e)
        | some (.ok pb) =>
          if pa = pb then some (.ok sibling) else some (.error .noSibling)

/-- `LOUDSTree::child_label`: `labels[rank_1(parent) + child_rank - 1]`,
where the parent is `0` for the root and `child_rank` is `0` for the root or
an only child; the `u64` wrap of `- 1` at rank `0` is modelled by truncated
subtraction, which gives the same failing lookup on the empty label lists
that occur here.  A `None` from `child_rank` is `unwrap`ped (`none`). -/
def LOUDSTree.childLabel {L : Type} (t : LOUDSTree L) (index : Nat) :
    Option (Except NodeError L) :=
  match (if index ≠ 1 then t.parent index else some (.ok 0)) with
  | none => none
  | some (.error e) => some (.error e)
  | some (.ok parentPos) =>
    let crRes : Option (Except NodeError Nat) :=
      if index = 1 then some (.ok 0)
      else
        match t.degree parentPos with
        | .error e => some (.error e)
        | .ok d =>
          if d = 1 then some (.ok 0)
          else
            match t.childRank index with
            | none => none
            | some cr => some (.ok cr)
    match crRes with
    | none => none
    | some (.error e) => some (.error e)
    | some (.ok cr) =>
      match bioRank true t.bits parentPos with
      | none => none
      | some parentRank =>
        match t.labels[parentRank + cr - 1]? with
        | none => some (.error .noLabel)
        | some lab => some (.ok lab)

/-- `LOUDSTree::from_bitvec`: gate on `is_valid`; the label vector starts
empty. -/
def LOUDSTree.fromBitvec {L : Type} (l : List Bool) : Except InvalidBitvecError (LOUDSTree L) :=
  if isValid l = true then .ok ⟨[], l⟩ else .error .invalidBitvec

/-- `LOUDSTree::save_to` — as for BP, it serializes only the Rank/Select
member (labels are not persisted). -/
def LOUDSTree.save {L : Type} (t : LOUDSTree L) : List Bool := t.bits

/-- `LOUDSTree::from_file`. -/
def LOUDSTree.load {L : Type} (s : List Bool) : LOUDSTree L := ⟨[], s⟩

/-- `PartialEq for LOUDSTree`: compares only the underlying bit sequences. -/
def LOUDSTree.beq {L : Type} (a b : LOUDSTree L) : Bool := a.bits == b.bits

end SuccinctTrees

namespace SuccinctTrees

theorem exc_zero (l : List Bool) : exc l 0 = 0 := rfl

theorem exc_cons (b : Bool) (r : List Bool) (k : Nat) :
    exc (b :: r) (k + 1) = bDelta b + exc r k := by
  simp [exc, List.take_succ_cons, excL]

theorem exc_length (l : List Bool) : exc l l.length = excL l := by
  simp [exc]

/-- Characterisation of the `is_valid` loop: it succeeds iff no check point
strictly before the last index sees excess `0` and the final excess is `0`. -/
theorem isValidGo_spec (rest : List Bool) : ∀ (len : Nat) (e : Int) (i : Nat),
    isValidGo len rest e i = true ↔
      ((∀ k : Nat, k < rest.length → ¬(e + exc rest (k + 1) = 0 ∧ i + k < len - 1)) ∧
        e + excL rest = 0) := by
  induction rest with
  | nil =>
    intro len e i
    simp [isValidGo, excL]
  | cons b r ih =>
    intro len e i
    rw [isValidGo]
    by_cases h : e + bDelta b = 0 ∧ i < len - 1
    · rw [if_pos h]
      simp only [Bool.false_eq_true, false_iff]
      rintro ⟨hall, -⟩
      have h0 := hall 0 (by simp)
      rw [exc_cons, exc_zero] at h0
      exact h0 ⟨by linarith [h.1], by simpa using h.2⟩
    · rw [if_neg h, ih]
      constructor
      · rintro ⟨hall, hsum⟩
        constructor
        · intro k hk
          cases k with
          | zero =>
            rintro ⟨h1, h2⟩
            rw [exc_cons, exc_zero] at h1
            exact h ⟨by linarith, by omega⟩
          | succ j =>
            have hj : j < r.length := by simp at hk; omega
            have := hall j hj
            rw [exc_cons]
            rintro ⟨h1, h2⟩
            exact this ⟨by linarith, by omega⟩
        · simp only [excL]
          linarith
      · rintro ⟨hall, hsum⟩
        constructor
        · intro k hk
          have := hall (k + 1) (by simp; omega)
          rw [exc_cons] at this
          rintro ⟨h1, h2⟩
          exact this ⟨by linarith, by omega⟩
        · simp only [excL] at hsum
          linarith

/-- `is_valid` accepts exactly the sequences whose total excess is `0` and
whose excess is nonzero at every position strictly before the last. -/
theorem isValid_iff (l : List Bool) :
    isValid l = true ↔
      (excL l = 0 ∧ ∀ i : Nat, i + 1 < l.length → exc l (i + 1) ≠ 0) := by
  unfold isValid
  rw [isValidGo_spec]
  constructor
  · rintro ⟨hall, hsum⟩
    refine ⟨by linarith, ?_⟩
    intro i hi he
    exact hall i (by omega) ⟨by linarith, by omega⟩
  · rintro ⟨hsum, hall⟩
    refine ⟨?_, by linarith⟩
    intro k hk
    rintro ⟨h1, h2⟩
    exact hall k (by omega) (by linarith)

end SuccinctTrees

namespace SuccinctTrees

theorem maxBlocks_one {m : MinMax} (h : m.numberOfBlocks ≤ 1) : m.maxBlocks = 1 := by
  unfold MinMax.maxBlocks
  rw [Nat.clog_of_right_le_one h]
  rfl

theorem heapLen_one {m : MinMax} (h : m.numberOfBlocks ≤ 1) : m.heapLen = 1 := by
  unfold MinMax.heapLen
  rw [maxBlocks_one h]

theorem fromBitvec_isOk (l : List Bool) :
    (BPTree.fromBitvec (L := Unit) l).isOk = isValid l ∧
      (LOUDSTree.fromBitvec (L := Unit) l).isOk = isValid l := by
  unfold BPTree.fromBitvec LOUDSTree.fromBitvec
  by_cases hv : isValid l = true
  · simp [hv, Except.isOk, Except.toBool]
  · rw [if_neg hv, if_neg hv]
    simp only [Bool.not_eq_true] at hv
    simp [hv, Except.isOk, Except.toBool]

/-- C1 (counterexample): the bit sequence `01` violates the claimed excess
invariant (`E(0) = -1`, not `≥ 1`) and its excess becomes negative before
the end, yet both `from_bitvec` constructors accept it instead of returning
`InvalidEncoding`. -/
theorem C1_counterexample :
    BPTree.fromBitvec (L := Unit) [false, true] = .ok ⟨[], [false, true]⟩ ∧
      LOUDSTree.fromBitvec (L := Unit) [false, true] = .ok ⟨[], [false, true]⟩ ∧
      exc [false, true] 1 = -1 :=
  ⟨rfl, rfl, rfl⟩

/-- C1 (amended): both `from_bitvec` constructors accept `B` iff
`E(len(B)-1) = 0` and `E(i) ≠ 0` for every `0 ≤ i < len(B)-1`; the excess is
not required to stay positive, so a sequence whose excess goes negative
before the end is accepted whenever it never touches zero early. -/
theorem C1_accepts_iff (l : List Bool) :
    ((BPTree.fromBitvec (L := Unit) l).isOk = true ↔
        (exc l l.length = 0 ∧ ∀ i : Nat, i + 1 < l.length → exc l (i + 1) ≠ 0)) ∧
      ((LOUDSTree.fromBitvec (L := Unit) l).isOk = true ↔
        (exc l l.length = 0 ∧ ∀ i : Nat, i + 1 < l.length → exc l (i + 1) ≠ 0)) := by
  rw [(fromBitvec_isOk l).1, (fromBitvec_isOk l).2, isValid_iff, exc_length]
  exact ⟨Iff.rfl, Iff.rfl⟩

/-- C2 (code_bug): on `10` with the facade block size, `enclose(0)` — the
root's open, for which no position with the target excess exists — returns
the sentinel success value `10000000` instead of a NotFound error, and
`find_close(1)` — again no answer exists — panics on an out-of-range read
instead of returning a NotFound error. -/
theorem C2_no_notfound_error :
    MinMax.enclose ⟨[true, false], 1024⟩ 0 = some 10000000 ∧
      MinMax.findClose ⟨[true, false], 1024⟩ 1 = none := by
  have h1 : (⟨[true, false], 1024⟩ : MinMax).numberOfBlocks ≤ 1 := by
    norm_num [MinMax.numberOfBlocks]
  constructor
  · simp [MinMax.enclose, MinMax.bwdSearch, MinMax.excessQ, MinMax.preExcess,
      heapLen_one h1, bwdScan, MinMax.bwdBottomUp, excL, bDelta]
  · simp [MinMax.findClose, MinMax.fwdSearch, fwdScan]

/-- C4 (code_bug): on `1100` the enclosing open of node 1 is the root
(`0 < 1 < find_close(0) = 3`), and the repository's own non-ignored test
asserts `parent(1) = 0`; but `enclose` — implemented as `bwd_search(i, 1)`,
with the wrong excess difference — finds nothing and returns the sentinel
`10000000`, so `enclose(x) < x` fails. -/
theorem C4_enclose_broken :
    BPTree.parent (⟨[], [true, true, false, false]⟩ : BPTree Unit) 1 = some (.ok 10000000) ∧
      MinMax.findClose ⟨[true, true, false, false], 1024⟩ 0 = some 3 := by
  have h1 : (⟨[true, true, false, false], 1024⟩ : MinMax).numberOfBlocks ≤ 1 := by
    norm_num [MinMax.numberOfBlocks]
  constructor
  · simp [BPTree.parent, BPTree.minmax, MinMax.enclose, MinMax.bwdSearch, MinMax.excessQ,
      MinMax.preExcess, heapLen_one h1, bwdScan, MinMax.bwdBottomUp, excL, bDelta]
  · simp [MinMax.findClose, MinMax.fwdSearch, fwdScan, bDelta]

/-- C5 (counterexample): `select_1(0)` returns the success value `0` both on
`10` and on the empty sequence, and `select_0(1)` on `11` (which has no zero
bit) returns the success value `0` — the claim requires `none` in all three
cases. -/
theorem C5_counterexample :
    MinMax.select1 ⟨[true, false], 1024⟩ 0 = .ok 0 ∧
      MinMax.select1 ⟨[], 1024⟩ 0 = .ok 0 ∧
      MinMax.select0 ⟨[true, true], 1024⟩ 1 = .ok 0 := by
  have h1 : (⟨[true, false], 1024⟩ : MinMax).numberOfBlocks ≤ 1 := by
    norm_num [MinMax.numberOfBlocks]
  have h2 : (⟨([] : List Bool), 1024⟩ : MinMax).numberOfBlocks ≤ 1 := by
    norm_num [MinMax.numberOfBlocks]
  have h3 : (⟨[true, true], 1024⟩ : MinMax).numberOfBlocks ≤ 1 := by
    norm_num [MinMax.numberOfBlocks]
  refine ⟨?_, ?_, ?_⟩
  · simp [MinMax.select1, MinMax.select1Go, heapLen_one h1, selScanGo, MinMax.heapGet,
      maxBlocks_one h1, MinMax.blockOf, blockSummary, blockStep]
  · simp [MinMax.select1, MinMax.select1Go, heapLen_one h2, selScanGo, MinMax.heapGet,
      maxBlocks_one h2, MinMax.blockOf, blockSummary, blockStep]
  · simp [MinMax.select0, MinMax.select0Go, heapLen_one h3, selScanGo, MinMax.heapGet,
      maxBlocks_one h3, MinMax.blockOf, blockSummary, blockStep]

/-- C6 (code_bug): the concrete expectations on `110100` hold
(`next_sibling(1) = 3 = find_close(1) + 1`, and `next_sibling(3)` fails with
NoSibling), but the claimed general rule does not: on `11100100`,
`s = find_close(1) + 1 = 5` and `B[5] = 1`, yet `next_sibling(1)` fails with
NoSibling — against the claim and the method's own documentation — because
the common-parent safeguard compares two results of the broken `enclose`. -/
theorem C6_next_sibling :
    BPTree.nextSibling (⟨[], [true, true, false, true, false, false]⟩ : BPTree Unit) 1
        = some (.ok 3) ∧
      BPTree.nextSibling (⟨[], [true, true, false, true, false, false]⟩ : BPTree Unit) 3
        = some (.error .noSibling) ∧
      BPTree.nextSibling (⟨[], [true, true, true, false, false, true, false, false]⟩ : BPTree Unit) 1
        = some (.error .noSibling) ∧
      MinMax.findClose ⟨[true, true, true, false, false, true, false, false], 1024⟩ 1 = some 4 ∧
      [true, true, true, false, false, true, false, false].getD 5 false = true := by
  have h1 : (⟨[true, true, false, true, false, false], 1024⟩ : MinMax).numberOfBlocks ≤ 1 := by
    norm_num [MinMax.numberOfBlocks]
  have h2 : (⟨[true, true, true, false, false, true, false, false], 1024⟩ : MinMax).numberOfBlocks ≤ 1 := by
    norm_num [MinMax.numberOfBlocks]
  refine ⟨?_, ?_, ?_, ?_, rfl⟩
  · simp [BPTree.nextSibling, BPTree.parent, BPTree.minmax, MinMax.enclose, MinMax.bwdSearch,
      MinMax.excessQ, MinMax.preExcess, heapLen_one h1, bwdScan, MinMax.bwdBottomUp,
      MinMax.findClose, MinMax.fwdSearch, fwdScan, excL, bDelta]
  · simp [BPTree.nextSibling, BPTree.parent, BPTree.minmax, MinMax.enclose, MinMax.bwdSearch,
      MinMax.excessQ, MinMax.preExcess, heapLen_one h1, bwdScan, MinMax.bwdBottomUp,
      MinMax.findClose, MinMax.fwdSearch, fwdScan, excL, bDelta]
  · simp [BPTree.nextSibling, BPTree.parent, BPTree.minmax, MinMax.enclose, MinMax.bwdSearch,
      MinMax.excessQ, MinMax.preExcess, heapLen_one h2, bwdScan, MinMax.bwdBottomUp,
      MinMax.findClose, MinMax.fwdSearch, fwdScan, excL, bDelta]
  · simp [MinMax.findClose, MinMax.fwdSearch, fwdScan, bDelta]

/-- C7 (counterexample): on `1100`, position 2 is a zero bit preceded by a
one bit — by the claim's rule a node with `is_leaf` true — but the code
fails it with NotANode; position 3 is a zero preceded by a zero — by the
claim's rule not a node — but the code accepts it as a leaf. -/
theorem C7_counterexample :
    LOUDSTree.isLeaf (⟨[], [true, true, false, false]⟩ : LOUDSTree Unit) 2
        = .error .notANode ∧
      LOUDSTree.isLeaf (⟨[], [true, true, false, false]⟩ : LOUDSTree Unit) 3 = .ok true :=
  ⟨rfl, rfl⟩

/-- C7 (amended): `is_leaf` fails with NotANode exactly for `x ≥ len(B)`,
`x = 0`, and `x` a zero bit preceded by a one bit (the claim swaps the two
zero-bit cases); every other `x` yields `B[x] = 0`; and the concrete facts
hold: on `1100`, node 3 is a valid node (a zero preceded by a zero) with
`first_child(1) = 3` and `parent(3) = 1`. -/
theorem C7_is_leaf_rule (l : List Bool) (x : Nat) :
    (LOUDSTree.isLeaf (⟨[], l⟩ : LOUDSTree Unit) x = .error .notANode ↔
        (l.length ≤ x ∨ x = 0 ∨ (l.getD x false = false ∧ l.getD (x - 1) false = true))) ∧
      (¬(l.length ≤ x ∨ x = 0 ∨ (l.getD x false = false ∧ l.getD (x - 1) false = true)) →
        LOUDSTree.isLeaf (⟨[], l⟩ : LOUDSTree Unit) x = .ok (!l.getD x false)) ∧
      LOUDSTree.isLeaf (⟨[], [true, true, false, false]⟩ : LOUDSTree Unit) 3 = .ok true ∧
      LOUDSTree.firstChild (⟨[], [true, true, false, false]⟩ : LOUDSTree Unit) 1
        = some (.ok 3) ∧
      LOUDSTree.parent (⟨[], [true, true, false, false]⟩ : LOUDSTree Unit) 3 = some (.ok 1) := by
  refine ⟨?_, ?_, rfl, rfl, rfl⟩
  · unfold LOUDSTree.isLeaf
    by_cases h : (l.length ≤ x ∨ x = 0 ∨ (l.getD x false = false ∧ l.getD (x - 1) false = true))
    · rw [if_pos h]
      simpa using h
    · rw [if_neg h]
      simpa using h
  · intro h
    unfold LOUDSTree.isLeaf
    rw [if_neg h]

theorem C7_is_leaf_rule_witness :
    LOUDSTree.isLeaf (⟨[], [true, true, false, false]⟩ : LOUDSTree Unit) 1 = .ok false := by
  have h := (C7_is_leaf_rule [true, true, false, false] 1).2.1 (by simp)
  simpa using h

/-- C8: saving a facade and loading it back yields an equal facade: facade
equality compares only the bit sequences, the persisted stream round-trips
the Rank/Select core by the external serializer's contract, and the load
path rebuilds the RMM tree (BP) and a fresh label list from those bits. -/
theorem C8_roundtrip :
    (∀ (L : Type) (t : BPTree L), BPTree.beq (BPTree.load (BPTree.save t)) t = true) ∧
      (∀ (L : Type) (t : LOUDSTree L), LOUDSTree.beq (LOUDSTree.load (LOUDSTree.save t)) t = true) := by
  constructor
  · intro L t
    simp [BPTree.beq, BPTree.load, BPTree.save]
  · intro L t
    simp [LOUDSTree.beq, LOUDSTree.load, LOUDSTree.save]

/-- C9 (counterexample): the empty sequence is accepted, but not every
navigation operation on the resulting facade fails with NotANode: the LOUDS
navigation operation `child_rank` returns the success value `0` at index 1. -/
theorem C9_counterexample :
    LOUDSTree.fromBitvec (L := Unit) [] = .ok ⟨[], []⟩ ∧
      LOUDSTree.childRank (⟨[], []⟩ : LOUDSTree Unit) 1 = some 0 :=
  ⟨rfl, rfl⟩

/-- C9 (amended): `is_valid` accepts the empty sequence and `from_bitvec`
does not return InvalidEncoding on it; on the resulting facades every
`Result`-returning navigation operation fails with NotANode because no
index is in range — but the `Option`-returning LOUDS operations do not:
`child` returns `none`, `child_rank` answers `0` for indices `≤ 1`, and
`child_label(1)` aborts on a failed `unwrap` of the rank lookup. -/
theorem C9_empty_facade :
    isValid [] = true ∧
      BPTree.fromBitvec (L := Unit) [] = .ok ⟨[], []⟩ ∧
      (∀ x : Nat, BPTree.isLeaf (⟨[], []⟩ : BPTree Unit) x = some (.error .notANode)) ∧
      (∀ x : Nat, BPTree.parent (⟨[], []⟩ : BPTree Unit) x = some (.error .notANode)) ∧
      (∀ x : Nat, BPTree.firstChild (⟨[], []⟩ : BPTree Unit) x = some (.error .notANode)) ∧
      (∀ x : Nat, BPTree.nextSibling (⟨[], []⟩ : BPTree Unit) x = some (.error .notANode)) ∧
      (∀ x : Nat, BPTree.childLabel (⟨[], []⟩ : BPTree Unit) x = some (.error .notANode)) ∧
      (∀ x : Nat, LOUDSTree.isLeaf (⟨[], []⟩ : LOUDSTree Unit) x = .error .notANode) ∧
      (∀ x : Nat, LOUDSTree.parent (⟨[], []⟩ : LOUDSTree Unit) x = some (.error .notANode)) ∧
      (∀ x : Nat, LOUDSTree.firstChild (⟨[], []⟩ : LOUDSTree Unit) x = some (.error .notANode)) ∧
      (∀ x : Nat, LOUDSTree.nextSibling (⟨[], []⟩ : LOUDSTree Unit) x = some (.error .notANode)) ∧
      (∀ x : Nat, LOUDSTree.degree (⟨[], []⟩ : LOUDSTree Unit) x = .error .notANode) ∧
      (∀ x n : Nat, LOUDSTree.child (⟨[], []⟩ : LOUDSTree Unit) x n = none) ∧
      LOUDSTree.childRank (⟨[], []⟩ : LOUDSTree Unit) 1 = some 0 ∧
      LOUDSTree.childLabel (⟨[], []⟩ : LOUDSTree Unit) 1 = none := by
  have hbpl : ∀ x : Nat, BPTree.isLeaf (⟨[], []⟩ : BPTree Unit) x = some (.error .notANode) := by
    intro x
    simp [BPTree.isLeaf, BPTree.isValidIndex]
  have hbpp : ∀ x : Nat, BPTree.parent (⟨[], []⟩ : BPTree Unit) x = some (.error .notANode) := by
    intro x
    simp [BPTree.parent]
  have hlil : ∀ x : Nat, LOUDSTree.isLeaf (⟨[], []⟩ : LOUDSTree Unit) x = .error .notANode := by
    intro x
    simp [LOUDSTree.isLeaf]
  have hlp : ∀ x : Nat, LOUDSTree.parent (⟨[], []⟩ : LOUDSTree Unit) x = some (.error .notANode) := by
    intro x
    simp [LOUDSTree.parent]
  refine ⟨rfl, rfl, hbpl, hbpp, ?_, ?_, ?_, hlil, hlp, ?_, ?_, ?_, ?_, rfl, rfl⟩
  · intro x
    simp [BPTree.firstChild, hbpl x]
  · intro x
    simp [BPTree.nextSibling, hbpp x]
  · intro x
    simp [BPTree.childLabel, BPTree.isValidIndex]
  · intro x
    simp [LOUDSTree.firstChild, hlil x]
  · intro x
    simp [LOUDSTree.nextSibling, hlp x]
  · intro x
    simp [LOUDSTree.degree, hlil x]
  · intro x n
    simp [LOUDSTree.child, bioRank]

/-- C10 (counterexample): `from_bitvec` accepts the degenerate sequence
`0011`; position 2 passes the code's own node test (`is_leaf` succeeds), yet
`child_label(2)` fails with NotANode — not with the label-lookup error
NoLabel. -/
theorem C10_counterexample :
    LOUDSTree.fromBitvec (L := Unit) [false, false, true, true]
        = .ok ⟨[], [false, false, true, true]⟩ ∧
      LOUDSTree.isLeaf (⟨[], [false, false, true, true]⟩ : LOUDSTree Unit) 2 = .ok false ∧
      LOUDSTree.childLabel (⟨[], [false, false, true, true]⟩ : LOUDSTree Unit) 2
        = some (.error .notANode) :=
  ⟨rfl, rfl, rfl⟩

end SuccinctTrees

namespace SuccinctTrees

theorem excL_append (u v : List Bool) : excL (u ++ v) = excL u + excL v := by
  induction u with
  | nil => simp [excL]
  | cons b r ih => simp [excL, ih]; ring

theorem exc_append_left {u : List Bool} (v : List Bool) {k : Nat} (h : k ≤ u.length) :
    exc (u ++ v) k = exc u k := by
  unfold exc
  rw [List.take_append_of_le_length h]

theorem exc_append_add (u v : List Bool) (k : Nat) :
    exc (u ++ v) (u.length + k) = excL u + exc v k := by
  unfold exc
  rw [List.take_append, excL_append]

theorem exc_of_length_le (l : List Bool) {k : Nat} (h : l.length ≤ k) : exc l k = excL l := by
  unfold exc
  rw [List.take_of_length_le h]

theorem exc_succ (l : List Bool) (k : Nat) (h : k < l.length) :
    exc l (k + 1) = exc l k + bDelta (l.getD k false) := by
  unfold exc
  rw [List.take_succ, excL_append]
  have : l[k]? = some (l.getD k false) := by
    rw [List.getD_eq_getElem?_getD, List.getElem?_eq_getElem h]
    rfl
  rw [this]
  simp [excL]

theorem exc_step_ge (l : List Bool) (k : Nat) : exc l k - 1 ≤ exc l (k + 1) := by
  by_cases h : k < l.length
  · rw [exc_succ l k h]
    unfold bDelta
    by_cases hb : l.getD k false <;> simp [hb] <;> omega
  · rw [exc_of_length_le l (by omega), exc_of_length_le l (by omega)]
    omega

theorem exc_step_le (l : List Bool) (k : Nat) : exc l (k + 1) ≤ exc l k + 1 := by
  by_cases h : k < l.length
  · rw [exc_succ l k h]
    unfold bDelta
    by_cases hb : l.getD k false <;> simp [hb] <;> omega
  · rw [exc_of_length_le l (by omega), exc_of_length_le l (by omega)]
    omega

/-- Discrete intermediate-value property of the excess walk, downward
crossings: a value between `exc l a` (above) and `exc l b` (below) is hit. -/
theorem exc_ivt_le (l : List Bool) (t : Int) :
    ∀ (d a b : Nat), b - a ≤ d → a ≤ b → exc l b ≤ t → t ≤ exc l a →
      ∃ c, a ≤ c ∧ c ≤ b ∧ exc l c = t := by
  intro d
  induction d with
  | zero =>
    intro a b hd hab hb ha
    have : a = b := by omega
    subst this
    exact ⟨a, le_refl a, le_refl a, by omega⟩
  | succ n ih =>
    intro a b hd hab hb ha
    by_cases he : exc l a = t
    · exact ⟨a, le_refl a, hab, he⟩
    · have hlt : t < exc l a := lt_of_le_of_ne ha (Ne.symm he)
      have hab' : a < b := by
        rcases Nat.eq_or_lt_of_le hab with h | h
        · subst h; omega
        · exact h
      have hstep := exc_step_ge l a
      obtain ⟨c, h1, h2, h3⟩ := ih (a + 1) b (by omega) (by omega) hb (by omega)
      exact ⟨c, by omega, h2, h3⟩

/-- Discrete intermediate-value property, upward crossings. -/
theorem exc_ivt_ge (l : List Bool) (t : Int) :
    ∀ (d a b : Nat), b - a ≤ d → a ≤ b → t ≤ exc l b → exc l a ≤ t →
      ∃ c, a ≤ c ∧ c ≤ b ∧ exc l c = t := by
  intro d
  induction d with
  | zero =>
    intro a b hd hab hb ha
    have : a = b := by omega
    subst this
    exact ⟨a, le_refl a, le_refl a, by omega⟩
  | succ n ih =>
    intro a b hd hab hb ha
    by_cases he : exc l a = t
    · exact ⟨a, le_refl a, hab, he⟩
    · have hlt : exc l a < t := lt_of_le_of_ne ha he
      have hab' : a < b := by
        rcases Nat.eq_or_lt_of_le hab with h | h
        · subst h; omega
        · exact h
      have hstep := exc_step_le l a
      obtain ⟨c, h1, h2, h3⟩ := ih (a + 1) b (by omega) (by omega) hb (by omega)
      exact ⟨c, by omega, h2, h3⟩

/-- Number of leaf blocks to the left of heap node `i` (proof scaffolding
describing the ranges the heap indices of `MinMax::new` cover). -/
def MinMax.wid (m : MinMax) (i : Nat) : Nat :=
  if i = 0 then m.maxBlocks else m.wid ((i - 1) / 2) / 2
termination_by i
decreasing_by all_goals omega

/-- First leaf block under heap node `i`. -/
def MinMax.lo (m : MinMax) (i : Nat) : Nat :=
  if i = 0 then 0
  else if i % 2 = 1 then m.lo ((i - 1) / 2)
  else m.lo ((i - 1) / 2) + m.wid ((i - 1) / 2) / 2
termination_by i
decreasing_by all_goals omega

/-- The bit segment covered by heap node `i`. -/
def MinMax.seg (m : MinMax) (i : Nat) : List Bool :=
  (m.bits.drop (m.lo i * m.blockSize)).take (m.wid i * m.blockSize)

theorem MinMax.wid_left (m : MinMax) (i : Nat) : m.wid (2 * i + 1) = m.wid i / 2 := by
  rw [MinMax.wid]
  have h1 : ¬(2 * i + 1 = 0) := by omega
  have h3 : (2 * i + 1 - 1) / 2 = i := by omega
  rw [if_neg h1, h3]

theorem MinMax.wid_right (m : MinMax) (i : Nat) : m.wid (2 * i + 2) = m.wid i / 2 := by
  rw [MinMax.wid]
  have h1 : ¬(2 * i + 2 = 0) := by omega
  have h3 : (2 * i + 2 - 1) / 2 = i := by omega
  rw [if_neg h1, h3]

theorem MinMax.lo_left (m : MinMax) (i : Nat) : m.lo (2 * i + 1) = m.lo i := by
  rw [MinMax.lo]
  have h1 : ¬(2 * i + 1 = 0) := by omega
  have h2 : (2 * i + 1) % 2 = 1 := by omega
  have h3 : (2 * i + 1 - 1) / 2 = i := by omega
  rw [if_neg h1, if_pos h2, h3]

theorem MinMax.lo_right (m : MinMax) (i : Nat) :
    m.lo (2 * i + 2) = m.lo i + m.wid i / 2 := by
  rw [MinMax.lo]
  have h1 : ¬(2 * i + 2 = 0) := by omega
  have h2 : ¬((2 * i + 2) % 2 = 1) := by omega
  rw [if_neg h1, if_neg h2]
  have h3 : (2 * i + 2 - 1) / 2 = i := by omega
  rw [h3]

theorem MinMax.wid_zero (m : MinMax) : m.wid 0 = m.maxBlocks := by
  rw [MinMax.wid]
  simp

theorem MinMax.lo_zero (m : MinMax) : m.lo 0 = 0 := by
  rw [MinMax.lo]
  simp

/-- Level formula for the heap geometry: a node `i` on level `k` (that is,
`2^k ≤ i+1 < 2^(k+1)`) covers `2^(h-k)` leaves starting at leaf
`(i+1-2^k)·2^(h-k)`, where `2^h = max_blocks`. -/
theorem MinMax.lo_wid_level (m : MinMax) :
    ∀ (k i : Nat), k ≤ Nat.clog 2 m.numberOfBlocks → 2 ^ k ≤ i + 1 → i + 1 < 2 ^ (k + 1) →
      m.wid i = 2 ^ (Nat.clog 2 m.numberOfBlocks - k) ∧
        m.lo i = (i + 1 - 2 ^ k) * 2 ^ (Nat.clog 2 m.numberOfBlocks - k) := by
  intro k
  induction k with
  | zero =>
    intro i _ h1 h2
    have hi : i = 0 := by omega
    subst hi
    rw [MinMax.wid_zero, MinMax.lo_zero]
    refine ⟨?_, by simp⟩
    show m.maxBlocks = 2 ^ (Nat.clog 2 m.numberOfBlocks - 0)
    rw [Nat.sub_zero]
    rfl
  | succ k ih =>
    intro i hk h1 h2
    have hp2 : (2 : Nat) ^ (k + 1) = 2 * 2 ^ k := by ring
    have hp4 : (2 : Nat) ^ (k + 2) = 4 * 2 ^ k := by ring
    have hpk : (0 : Nat) < 2 ^ k := Nat.pos_pow_of_pos _ (by omega)
    have hi1 : 1 ≤ i := by omega
    have hpar : (i - 1) / 2 + 1 = (i + 1) / 2 := by omega
    obtain ⟨hw, hl⟩ := ih ((i - 1) / 2) (by omega) (by omega) (by rw [hp2] at h1; omega)
    have hsub : Nat.clog 2 m.numberOfBlocks - k = (Nat.clog 2 m.numberOfBlocks - (k + 1)) + 1 := by
      omega
    have hw2 : (2 : Nat) ^ (Nat.clog 2 m.numberOfBlocks - k) =
        2 * 2 ^ (Nat.clog 2 m.numberOfBlocks - (k + 1)) := by
      rw [hsub]
      ring
    obtain ⟨d, hd⟩ : ∃ d, (i - 1) / 2 + 1 = 2 ^ k + d := ⟨(i - 1) / 2 + 1 - 2 ^ k, by omega⟩
    constructor
    · rw [MinMax.wid, if_neg (by omega : ¬(i = 0)), hw, hw2]
      omega
    · rw [MinMax.lo, if_neg (by omega : ¬(i = 0))]
      by_cases hodd : i % 2 = 1
      · rw [if_pos hodd, hl]
        have he1 : i + 1 - 2 ^ (k + 1) = 2 * d := by omega
        have he2 : (i - 1) / 2 + 1 - 2 ^ k = d := by omega
        rw [he1, he2]
        rw [hw2]
        ring
      · rw [if_neg hodd, hl, hw, hw2]
        have he1 : i + 1 - 2 ^ (k + 1) = 2 * d + 1 := by omega
        have he2 : (i - 1) / 2 + 1 - 2 ^ k = d := by omega
        rw [he1, he2]
        have : 2 * 2 ^ (Nat.clog 2 m.numberOfBlocks - (k + 1)) / 2 =
            2 ^ (Nat.clog 2 m.numberOfBlocks - (k + 1)) := by omega
        rw [this]
        ring

theorem exists_level (i : Nat) : ∃ k, 2 ^ k ≤ i + 1 ∧ i + 1 < 2 ^ (k + 1) :=
  ⟨Nat.log 2 (i + 1), Nat.pow_log_le_self 2 (by omega), Nat.lt_pow_succ_log_self (by omega) _⟩

theorem MinMax.level_le (m : MinMax) {k i : Nat} (hk1 : 2 ^ k ≤ i + 1) (hi : i < m.heapLen) :
    k ≤ Nat.clog 2 m.numberOfBlocks := by
  have hmb : m.maxBlocks = 2 ^ Nat.clog 2 m.numberOfBlocks := rfl
  have h2 : i + 1 < 2 ^ (Nat.clog 2 m.numberOfBlocks + 1) := by
    have := m.maxBlocks_pos
    unfold MinMax.heapLen at hi
    have : (2 : Nat) ^ (Nat.clog 2 m.numberOfBlocks + 1) = 2 * m.maxBlocks := by
      rw [hmb]; ring
    omega
  by_contra hc
  have : 2 ^ (Nat.clog 2 m.numberOfBlocks + 1) ≤ 2 ^ k :=
    Nat.pow_le_pow_right (by omega) (by omega)
  omega

theorem MinMax.wid_pos (m : MinMax) {i : Nat} (hi : i < m.heapLen) : 0 < m.wid i := by
  obtain ⟨k, hk1, hk2⟩ := exists_level i
  obtain ⟨hw, -⟩ := m.lo_wid_level k i (m.level_le hk1 hi) hk1 hk2
  rw [hw]
  exact Nat.pos_pow_of_pos _ (by omega)

theorem MinMax.hi_le_mb (m : MinMax) {i : Nat} (hi : i < m.heapLen) :
    m.lo i + m.wid i ≤ m.maxBlocks := by
  obtain ⟨k, hk1, hk2⟩ := exists_level i
  have hkle := m.level_le hk1 hi
  obtain ⟨hw, hl⟩ := m.lo_wid_level k i hkle hk1 hk2
  rw [hw, hl]
  have hmb : m.maxBlocks = 2 ^ Nat.clog 2 m.numberOfBlocks := rfl
  have h1 : (i + 1 - 2 ^ k) * 2 ^ (Nat.clog 2 m.numberOfBlocks - k) +
      2 ^ (Nat.clog 2 m.numberOfBlocks - k) =
      (i + 2 - 2 ^ k) * 2 ^ (Nat.clog 2 m.numberOfBlocks - k) := by
    have : i + 2 - 2 ^ k = (i + 1 - 2 ^ k) + 1 := by omega
    rw [this]
    ring
  rw [h1, hmb]
  calc (i + 2 - 2 ^ k) * 2 ^ (Nat.clog 2 m.numberOfBlocks - k)
      ≤ 2 ^ k * 2 ^ (Nat.clog 2 m.numberOfBlocks - k) := by
        apply Nat.mul_le_mul_right
        omega
    _ = 2 ^ Nat.clog 2 m.numberOfBlocks := by
        rw [← pow_add]
        congr 1
        omega

theorem MinMax.leaf_lo_wid (m : MinMax) {i : Nat} (h1 : m.maxBlocks - 1 ≤ i)
    (h2 : i < m.heapLen) : m.lo i = i - (m.maxBlocks - 1) ∧ m.wid i = 1 := by
  have hmb : m.maxBlocks = 2 ^ Nat.clog 2 m.numberOfBlocks := rfl
  have hpos := m.maxBlocks_pos
  have hk1 : 2 ^ Nat.clog 2 m.numberOfBlocks ≤ i + 1 := by omega
  have hk2 : i + 1 < 2 ^ (Nat.clog 2 m.numberOfBlocks + 1) := by
    have : (2 : Nat) ^ (Nat.clog 2 m.numberOfBlocks + 1) = 2 * m.maxBlocks := by
      rw [hmb]; ring
    unfold MinMax.heapLen at h2
    omega
  obtain ⟨hw, hl⟩ := m.lo_wid_level (Nat.clog 2 m.numberOfBlocks) i (le_refl _) hk1 hk2
  rw [Nat.sub_self] at hw hl
  simp at hw hl
  rw [hw, hl]
  omega

/-- An internal node's width is an even positive number. -/
theorem MinMax.wid_internal (m : MinMax) {i : Nat} (hi : i < m.maxBlocks - 1) :
    m.wid i = 2 * (m.wid i / 2) ∧ 0 < m.wid i / 2 := by
  have hmb : m.maxBlocks = 2 ^ Nat.clog 2 m.numberOfBlocks := rfl
  obtain ⟨k, hk1, hk2⟩ := exists_level i
  have hhl : i < m.heapLen := by
    unfold MinMax.heapLen
    have := m.maxBlocks_pos
    omega
  have hkle := m.level_le hk1 hhl
  obtain ⟨hw, -⟩ := m.lo_wid_level k i hkle hk1 hk2
  have hklt : k < Nat.clog 2 m.numberOfBlocks := by
    by_contra hc
    have hke : k = Nat.clog 2 m.numberOfBlocks := by omega
    subst hke
    rw [← hmb] at hk1
    omega
  have hexp : Nat.clog 2 m.numberOfBlocks - k = (Nat.clog 2 m.numberOfBlocks - k - 1) + 1 := by
    omega
  rw [hw, hexp]
  have h2 : (2 : Nat) ^ ((Nat.clog 2 m.numberOfBlocks - k - 1) + 1) =
      2 * 2 ^ (Nat.clog 2 m.numberOfBlocks - k - 1) := by ring
  rw [h2]
  have := Nat.pos_pow_of_pos (Nat.clog 2 m.numberOfBlocks - k - 1) (show 0 < 2 by omega)
  omega

end SuccinctTrees

namespace SuccinctTrees

/-- Semantic contents of a heap node: `nd` faithfully summarises the bit
segment `l` (total excess, bit count, emptiness flag, and exact bounds with
attainment for the running excess over non-empty prefixes). -/
def Summarizes (nd : MinMaxNode) (l : List Bool) : Prop :=
  nd.excess = excL l ∧
    nd.bitsForNode = l.length ∧
    (0 < nd.numberMinExcess ↔ l ≠ []) ∧
    (∀ k : Nat, 1 ≤ k → k ≤ l.length → nd.minExcess ≤ exc l k ∧ exc l k ≤ nd.maxExcess) ∧
    (l ≠ [] →
      (∃ k, 1 ≤ k ∧ k ≤ l.length ∧ exc l k = nd.minExcess) ∧
        (∃ k, 1 ≤ k ∧ k ≤ l.length ∧ exc l k = nd.maxExcess))

/-- Invariant of the per-block scan state over the processed prefix. -/
def StateOK (s : Int × Int × Nat × Int) (l : List Bool) : Prop :=
  s.1 = excL l ∧ 0 < s.2.2.1 ∧
    (∀ k : Nat, 1 ≤ k → k ≤ l.length → s.2.1 ≤ exc l k ∧ exc l k ≤ s.2.2.2) ∧
    (∃ k, 1 ≤ k ∧ k ≤ l.length ∧ exc l k = s.2.1) ∧
    (∃ k, 1 ≤ k ∧ k ≤ l.length ∧ exc l k = s.2.2.2)

theorem exc_snoc_left {l : List Bool} (b : Bool) {k : Nat} (h : k ≤ l.length) :
    exc (l ++ [b]) k = exc l k :=
  exc_append_left [b] h

theorem exc_snoc_last (l : List Bool) (b : Bool) :
    exc (l ++ [b]) (l.length + 1) = excL l + bDelta b := by
  rw [exc_append_add l [b] 1]
  simp [exc, excL]

theorem StateOK.mk {e mn mx : Int} {nm : Nat} {l : List Bool}
    (h1 : e = excL l) (h2 : 0 < nm)
    (h3 : ∀ k : Nat, 1 ≤ k → k ≤ l.length → mn ≤ exc l k ∧ exc l k ≤ mx)
    (h4 : ∃ k, 1 ≤ k ∧ k ≤ l.length ∧ exc l k = mn)
    (h5 : ∃ k, 1 ≤ k ∧ k ≤ l.length ∧ exc l k = mx) :
    StateOK (e, mn, nm, mx) l :=
  ⟨h1, h2, h3, h4, h5⟩

theorem blockStep_ok {e mn mx : Int} {nm : Nat} {l : List Bool}
    (h : StateOK (e, mn, nm, mx) l) (b : Bool) :
    StateOK (blockStep (e, mn, nm, mx) b) (l ++ [b]) := by
  obtain ⟨he, hnm, hbnd, ⟨km, hkm1, hkm2, hkm3⟩, ⟨kM, hkM1, hkM2, hkM3⟩⟩ := h
  simp only at he hnm hbnd hkm3 hkM3
  have hee : e = exc l l.length := by rw [exc_length]; exact he
  have hme : mn ≤ e := hee ▸ (hbnd l.length (by omega) (le_refl _)).1
  have hMe : e ≤ mx := hee ▸ (hbnd l.length (by omega) (le_refl _)).2
  have hmM : mn ≤ mx := le_trans hme hMe
  have hlen : (l ++ [b]).length = l.length + 1 := by simp
  have hkmlen : km ≤ (l ++ [b]).length := by rw [hlen]; omega
  have hkMlen : kM ≤ (l ++ [b]).length := by rw [hlen]; omega
  have hbnd' : ∀ k : Nat, 1 ≤ k → k ≤ l.length → mn ≤ exc (l ++ [b]) k ∧
      exc (l ++ [b]) k ≤ mx := by
    intro k h1 h2
    rw [exc_snoc_left b h2]
    exact hbnd k h1 h2
  have hkm2' : exc (l ++ [b]) km = mn := by rw [exc_snoc_left b hkm2]; exact hkm3
  have hkM2' : exc (l ++ [b]) kM = mx := by rw [exc_snoc_left b hkM2]; exact hkM3
  have hEnew : excL (l ++ [b]) = e + bDelta b := by
    rw [excL_append, he]
    simp [excL]
  have hlastv : exc (l ++ [b]) (l.length + 1) = e + bDelta b := by
    rw [exc_snoc_last l b, he]
  have hlastlen : (1 : Nat) ≤ l.length + 1 ∧ l.length + 1 ≤ (l ++ [b]).length := by
    rw [hlen]; omega
  cases b with
  | true =>
    have hE1 : excL (l ++ [true]) = e + 1 := by rw [hEnew]; simp [bDelta]
    have hl1 : exc (l ++ [true]) (l.length + 1) = e + 1 := by rw [hlastv]; simp [bDelta]
    by_cases hmx : mx < e + 1
    · simp only [blockStep, if_pos, if_pos hmx]
      refine StateOK.mk hE1.symm hnm ?_ ⟨km, hkm1, hkmlen, hkm2'⟩ ⟨l.length + 1, hlastlen.1, hlastlen.2, hl1⟩
      intro k h1 h2
      rw [hlen] at h2
      rcases Nat.lt_or_ge k (l.length + 1) with hk | hk
      · have := hbnd' k h1 (by omega)
        exact ⟨this.1, by omega⟩
      · have hke : k = l.length + 1 := by omega
        subst hke
        rw [hl1]
        exact ⟨by omega, le_refl _⟩
    · simp only [blockStep, if_pos, if_neg hmx]
      refine StateOK.mk hE1.symm hnm ?_ ⟨km, hkm1, hkmlen, hkm2'⟩ ⟨kM, hkM1, hkMlen, hkM2'⟩
      intro k h1 h2
      rw [hlen] at h2
      rcases Nat.lt_or_ge k (l.length + 1) with hk | hk
      · exact hbnd' k h1 (by omega)
      · have hke : k = l.length + 1 := by omega
        subst hke
        rw [hl1]
        exact ⟨by omega, by omega⟩
  | false =>
    have hE1 : excL (l ++ [false]) = e - 1 := by rw [hEnew]; simp [bDelta]; ring
    have hl1 : exc (l ++ [false]) (l.length + 1) = e - 1 := by rw [hlastv]; simp [bDelta]; ring
    simp only [blockStep, Bool.false_eq_true, if_false]
    by_cases h1 : e - 1 = mn
    · rw [if_pos h1]
      refine StateOK.mk hE1.symm (by omega) ?_ ⟨km, hkm1, hkmlen, hkm2'⟩ ⟨kM, hkM1, hkMlen, hkM2'⟩
      intro k hc1 hc2
      rw [hlen] at hc2
      rcases Nat.lt_or_ge k (l.length + 1) with hk | hk
      · exact hbnd' k hc1 (by omega)
      · have hke : k = l.length + 1 := by omega
        subst hke
        rw [hl1, h1]
        exact ⟨le_refl _, hmM⟩
    · rw [if_neg h1]
      by_cases h2 : e - 1 < mn
      · rw [if_pos h2]
        refine StateOK.mk hE1.symm (by omega) ?_ ⟨l.length + 1, hlastlen.1, hlastlen.2, hl1⟩
          ⟨kM, hkM1, hkMlen, hkM2'⟩
        intro k hc1 hc2
        rw [hlen] at hc2
        rcases Nat.lt_or_ge k (l.length + 1) with hk | hk
        · have := hbnd' k hc1 (by omega)
          exact ⟨by omega, this.2⟩
        · have hke : k = l.length + 1 := by omega
          subst hke
          rw [hl1]
          exact ⟨le_refl _, by omega⟩
      · rw [if_neg h2]
        refine StateOK.mk hE1.symm hnm ?_ ⟨km, hkm1, hkmlen, hkm2'⟩ ⟨kM, hkM1, hkMlen, hkM2'⟩
        intro k hc1 hc2
        rw [hlen] at hc2
        rcases Nat.lt_or_ge k (l.length + 1) with hk | hk
        · exact hbnd' k hc1 (by omega)
        · have hke : k = l.length + 1 := by omega
          subst hke
          rw [hl1]
          exact ⟨by omega, by omega⟩

end SuccinctTrees

namespace SuccinctTrees

theorem blockFold_ok (p : List Bool) :
    ∀ (l : List Bool) (s : Int × Int × Nat × Int), StateOK s l →
      StateOK (p.foldl blockStep s) (l ++ p) := by
  induction p with
  | nil =>
    intro l s hs
    simpa using hs
  | cons b q ih =>
    intro l s hs
    obtain ⟨e, mn, nm, mx⟩ := s
    have h1 := blockStep_ok hs b
    have h2 := ih (l ++ [b]) _ h1
    simpa using h2

theorem stateOK_init (b : Bool) :
    StateOK (if b then ((1 : Int), (1 : Int), (1 : Nat), (1 : Int)) else (-1, -1, 1, -1)) [b] := by
  cases b
  · simp only [Bool.false_eq_true, if_false]
    have hv : exc [false] 1 = -1 := by simp [exc, excL, bDelta]
    refine StateOK.mk ?_ (by omega) ?_ ⟨1, by omega, by simp, hv⟩ ⟨1, by omega, by simp, hv⟩
    · simp [excL, bDelta]
    · intro k h1 h2
      simp at h2
      have : k = 1 := by omega
      subst this
      rw [hv]
      exact ⟨le_refl _, le_refl _⟩
  · simp only [if_pos]
    have hv : exc [true] 1 = 1 := by simp [exc, excL, bDelta]
    refine StateOK.mk ?_ (by omega) ?_ ⟨1, by omega, by simp, hv⟩ ⟨1, by omega, by simp, hv⟩
    · simp [excL, bDelta]
    · intro k h1 h2
      simp at h2
      have : k = 1 := by omega
      subst this
      rw [hv]
      exact ⟨le_refl _, le_refl _⟩

theorem summarizes_blockSummary (l : List Bool) : Summarizes (blockSummary l) l := by
  match l with
  | [] =>
    refine ⟨rfl, rfl, by simp [blockSummary, MinMaxNode.default0], ?_, ?_⟩
    · intro k h1 h2
      simp at h2
      omega
    · intro h
      exact absurd rfl h
  | b :: rest =>
    have h0 := stateOK_init b
    have hf := blockFold_ok rest [b] _ h0
    simp only [List.singleton_append] at hf
    obtain ⟨he, hnm, hbnd, hmin, hmax⟩ := hf
    exact ⟨he, rfl, iff_of_true hnm (by simp), hbnd, fun _ => ⟨hmin, hmax⟩⟩

theorem summarizes_combine {nl nr : MinMaxNode} {u v : List Bool}
    (hu : Summarizes nl u) (hv : Summarizes nr v) (hpre : u = [] → v = []) :
    Summarizes (combine nl nr) (u ++ v) := by
  obtain ⟨hue, hul, hun, hub, hua⟩ := hu
  obtain ⟨hve, hvl, hvn, hvb, hva⟩ := hv
  by_cases hve' : v = []
  · subst hve'
    have hz : ¬(0 < nr.numberMinExcess) := by rw [hvn]; simp
    rw [combine, if_neg hz, List.append_nil]
    exact ⟨hue, hul, hun, hub, hua⟩
  · have hu' : u ≠ [] := fun h => hve' (hpre h)
    have hnm : 0 < nr.numberMinExcess := hvn.mpr hve'
    obtain ⟨⟨kmu, hkmu1, hkmu2, hkmu3⟩, ⟨kMu, hkMu1, hkMu2, hkMu3⟩⟩ := hua hu'
    obtain ⟨⟨kmv, hkmv1, hkmv2, hkmv3⟩, ⟨kMv, hkMv1, hkMv2, hkMv3⟩⟩ := hva hve'
    rw [combine, if_pos hnm]
    have hlen : (u ++ v).length = u.length + v.length := by simp
    have hleft : ∀ k : Nat, k ≤ u.length → exc (u ++ v) k = exc u k := fun k h =>
      exc_append_left v h
    have hright : ∀ k : Nat, exc (u ++ v) (u.length + k) = nl.excess + exc v k := by
      intro k
      rw [exc_append_add, hue]
    refine ⟨?_, ?_, ?_, ?_, fun _ => ⟨?_, ?_⟩⟩
    · show nl.excess + nr.excess = excL (u ++ v)
      rw [excL_append, hue, hve]
    · show nl.bitsForNode + nr.bitsForNode = (u ++ v).length
      rw [hul, hvl, hlen]
    · have hunm : 0 < nl.numberMinExcess := hun.mpr hu'
      constructor
      · intro _
        simp [hu']
      · intro _
        show 0 < if nl.excess + nr.minExcess = nl.minExcess then
            nl.numberMinExcess + nr.numberMinExcess
          else if nl.excess + nr.minExcess < nl.minExcess then nr.numberMinExcess
          else nl.numberMinExcess
        by_cases hc1 : nl.excess + nr.minExcess = nl.minExcess
        · rw [if_pos hc1]
          omega
        · rw [if_neg hc1]
          by_cases hc2 : nl.excess + nr.minExcess < nl.minExcess
          · rw [if_pos hc2]
            exact hnm
          · rw [if_neg hc2]
            exact hunm
    · intro k h1 h2
      rw [hlen] at h2
      show min (nl.excess + nr.minExcess) nl.minExcess ≤ exc (u ++ v) k ∧
        exc (u ++ v) k ≤ max (nl.excess + nr.maxExcess) nl.maxExcess
      rcases le_or_lt k u.length with hk | hk
      · rw [hleft k hk]
        have hb := hub k h1 hk
        exact ⟨le_trans (min_le_right _ _) hb.1, le_trans hb.2 (le_max_right _ _)⟩
      · obtain ⟨j, hj⟩ : ∃ j, k = u.length + j := ⟨k - u.length, by omega⟩
        subst hj
        rw [hright j]
        have hb := hvb j (by omega) (by omega)
        constructor
        · exact le_trans (min_le_left _ _) (by omega)
        · exact le_trans (by omega : nl.excess + exc v j ≤ nl.excess + nr.maxExcess)
            (le_max_left _ _)
    · show ∃ k, 1 ≤ k ∧ k ≤ (u ++ v).length ∧
        exc (u ++ v) k = min (nl.excess + nr.minExcess) nl.minExcess
      rcases le_total nl.minExcess (nl.excess + nr.minExcess) with hc | hc
      · refine ⟨kmu, hkmu1, by rw [hlen]; omega, ?_⟩
        rw [hleft kmu hkmu2, hkmu3]
        exact (min_eq_right hc).symm
      · refine ⟨u.length + kmv, by omega, by rw [hlen]; omega, ?_⟩
        rw [hright kmv, hkmv3]
        exact (min_eq_left hc).symm
    · show ∃ k, 1 ≤ k ∧ k ≤ (u ++ v).length ∧
        exc (u ++ v) k = max (nl.excess + nr.maxExcess) nl.maxExcess
      rcases le_total nl.maxExcess (nl.excess + nr.maxExcess) with hc | hc
      · refine ⟨u.length + kMv, by omega, by rw [hlen]; omega, ?_⟩
        rw [hright kMv, hkMv3]
        exact (max_eq_left hc).symm
      · refine ⟨kMu, hkMu1, by rw [hlen]; omega, ?_⟩
        rw [hleft kMu hkMu2, hkMu3]
        exact (max_eq_right hc).symm

theorem MinMax.seg_leaf (m : MinMax) {i : Nat} (h1 : m.maxBlocks - 1 ≤ i)
    (h2 : i < m.heapLen) : m.seg i = m.blockOf (i - (m.maxBlocks - 1)) := by
  obtain ⟨hl, hw⟩ := m.leaf_lo_wid h1 h2
  unfold MinMax.seg MinMax.blockOf
  rw [hl, hw, one_mul]

theorem MinMax.seg_split (m : MinMax) {i : Nat} (hi : i < m.maxBlocks - 1) :
    m.seg i = m.seg (2 * i + 1) ++ m.seg (2 * i + 2) := by
  obtain ⟨heven, hwpos⟩ := m.wid_internal hi
  unfold MinMax.seg
  rw [m.lo_left i, m.lo_right i, m.wid_left i, m.wid_right i]
  have h1 : m.wid i * m.blockSize = m.wid i / 2 * m.blockSize + m.wid i / 2 * m.blockSize := by
    conv_lhs => rw [heven]
    ring
  rw [h1, List.take_add]
  congr 1
  rw [List.drop_drop]
  congr 1
  ring

theorem MinMax.seg_right_empty (m : MinMax) {i : Nat} (h : m.seg (2 * i + 1) = []) :
    m.seg (2 * i + 2) = [] := by
  unfold MinMax.seg at h ⊢
  rw [m.lo_left i, m.wid_left i] at h
  rw [m.lo_right i, m.wid_right i]
  rcases List.take_eq_nil_iff.mp h with h1 | h1
  · rw [h1]
    simp
  · have hlen := List.drop_eq_nil_iff_le.mp h1
    have h2 : m.bits.drop ((m.lo i + m.wid i / 2) * m.blockSize) = [] := by
      apply List.drop_eq_nil_iff_le.mpr
      calc m.bits.length ≤ m.lo i * m.blockSize := hlen
        _ ≤ (m.lo i + m.wid i / 2) * m.blockSize := Nat.mul_le_mul_right _ (by omega)
    rw [h2]
    simp

/-- Central lemma: every heap node faithfully summarises its bit segment. -/
theorem MinMax.heap_summarizes (m : MinMax) :
    ∀ i, i < m.heapLen → Summarizes (m.heapGet i) (m.seg i) := by
  have H : ∀ (d i : Nat), m.maxBlocks - i ≤ d → i < m.heapLen →
      Summarizes (m.heapGet i) (m.seg i) := by
    intro d
    induction d with
    | zero =>
      intro i hd hi
      have hleaf : m.maxBlocks - 1 ≤ i := by omega
      rw [MinMax.heapGet, dif_pos hleaf, ← m.seg_leaf hleaf hi]
      exact summarizes_blockSummary _
    | succ n ih =>
      intro i hd hi
      by_cases hleaf : m.maxBlocks - 1 ≤ i
      · rw [MinMax.heapGet, dif_pos hleaf, ← m.seg_leaf hleaf hi]
        exact summarizes_blockSummary _
      · push_neg at hleaf
        have hmb := m.maxBlocks_pos
        have hhl : m.heapLen = 2 * m.maxBlocks - 1 := rfl
        rw [MinMax.heapGet, dif_neg (by omega : ¬(m.maxBlocks - 1 ≤ i)),
          m.seg_split (by omega : i < m.maxBlocks - 1)]
        exact summarizes_combine (ih _ (by omega) (by omega)) (ih _ (by omega) (by omega))
          m.seg_right_empty
  intro i hi
  exact H m.maxBlocks i (by omega) hi

theorem slice_length (B : List Bool) (a w : Nat) :
    ((B.drop a).take w).length = min w (B.length - a) := by
  simp

theorem exc_slice (B : List Bool) (a w k : Nat) (hk : k ≤ w) :
    exc ((B.drop a).take w) k = exc B (a + k) - exc B a := by
  have h1 : exc B (a + k) = exc B a + excL ((B.drop a).take k) := by
    unfold exc
    rw [List.take_add, excL_append]
  have h2 : exc ((B.drop a).take w) k = excL ((B.drop a).take k) := by
    unfold exc
    rw [List.take_take, Nat.min_eq_left hk]
  omega

theorem excL_slice (B : List Bool) (a w : Nat) :
    excL ((B.drop a).take w) = exc B (a + min w (B.length - a)) - exc B a := by
  rw [← exc_length ((B.drop a).take w), slice_length]
  rcases Nat.le_total w (B.length - a) with h | h
  · rw [Nat.min_eq_left h, exc_slice B a w w (le_refl w)]
  · rw [Nat.min_eq_right h, exc_slice B a w (B.length - a) h]

end SuccinctTrees

namespace SuccinctTrees

theorem exc_min_add (B : List Bool) (a w : Nat) :
    exc B (a + min w (B.length - a)) = exc B (a + w) := by
  rcases le_total w (B.length - a) with h | h
  · rw [Nat.min_eq_left h]
  · rw [Nat.min_eq_right h]
    rcases le_total B.length a with h2 | h2
    · have hz : B.length - a = 0 := by omega
      rw [hz]
      rw [exc_of_length_le B (by omega), exc_of_length_le B (by omega)]
    · rw [exc_of_length_le B (by omega), exc_of_length_le B (by omega)]

/-- The climb of `MinMax::excess` accumulates exactly the excess of all bits
before the node's segment. -/
theorem MinMax.preExcess_eq (m : MinMax) :
    ∀ i, i < m.heapLen → m.preExcess i = exc m.bits (m.lo i * m.blockSize) := by
  intro i
  induction i using Nat.strong_induction_on with
  | _ i ih =>
    intro hi
    rw [MinMax.preExcess]
    by_cases h0 : i = 0
    · subst h0
      rw [if_pos rfl, m.lo_zero]
      simp [exc, excL]
    · rw [if_neg h0]
      have hplt : (i - 1) / 2 < i := by omega
      have hphl : (i - 1) / 2 < m.heapLen := by omega
      by_cases hev : i % 2 = 0
      · rw [if_pos hev]
        have hi2 : i = 2 * ((i - 1) / 2) + 2 := by omega
        have hchl : 2 * ((i - 1) / 2) + 1 < m.heapLen := by omega
        have hsum := (m.heap_summarizes (2 * ((i - 1) / 2) + 1) hchl).1
        rw [ih _ hplt hphl, hsum]
        conv_rhs => rw [hi2]
        rw [m.lo_right]
        unfold MinMax.seg
        rw [m.lo_left, m.wid_left, excL_slice, exc_min_add, Nat.add_mul]
        ring
      · rw [if_neg hev]
        have hi2 : i = 2 * ((i - 1) / 2) + 1 := by omega
        rw [ih _ hplt hphl]
        conv_rhs => rw [hi2]
        rw [m.lo_left]

theorem MinMax.nb_le_mb (m : MinMax) : m.numberOfBlocks ≤ m.maxBlocks :=
  Nat.le_pow_clog (by omega) _

theorem MinMax.blockNumber_lt (m : MinMax) (hbs : 1 ≤ m.blockSize) {index : Nat}
    (h : index < m.bits.length) : index / m.blockSize < m.numberOfBlocks := by
  unfold MinMax.numberOfBlocks
  by_cases hmod : m.bits.length % m.blockSize ≠ 0
  · rw [if_pos hmod]
    have := Nat.div_le_div_right (c := m.blockSize) (le_of_lt h)
    omega
  · rw [if_neg hmod]
    push_neg at hmod
    exact Nat.div_lt_div_of_lt_of_dvd (Nat.dvd_of_mod_eq_zero hmod) h

/-- The leaf heap index of the block containing a bit position. -/
theorem MinMax.leaf_of_block (m : MinMax) {b : Nat} (hb : b < m.numberOfBlocks) :
    m.lo (b + (m.maxBlocks - 1)) = b ∧ m.wid (b + (m.maxBlocks - 1)) = 1 ∧
      b + (m.maxBlocks - 1) < m.heapLen := by
  have hmb := m.maxBlocks_pos
  have hnb := m.nb_le_mb
  have hhl : m.heapLen = 2 * m.maxBlocks - 1 := rfl
  have hlt : b + (m.maxBlocks - 1) < m.heapLen := by omega
  obtain ⟨h1, h2⟩ := m.leaf_lo_wid (by omega) hlt
  exact ⟨by omega, h2, hlt⟩

/-- `MinMax::excess` computes the excess function. -/
theorem MinMax.excessQ_eq (m : MinMax) (hbs : 1 ≤ m.blockSize) {index : Nat}
    (h : index < m.bits.length) : m.excessQ index = .ok (exc m.bits (index + 1)) := by
  unfold MinMax.excessQ
  rw [if_neg (by omega)]
  have hbn := m.blockNumber_lt hbs h
  obtain ⟨hlo, hwid, hlt⟩ := m.leaf_of_block hbn
  have hdl : index / m.blockSize * m.blockSize ≤ index := Nat.div_mul_le_self _ _
  have hpe : m.preExcess (index / m.blockSize + m.heapLen / 2) =
      exc m.bits (index / m.blockSize * m.blockSize) := by
    rw [m.heapLen_div2]
    rw [m.preExcess_eq _ hlt, hlo]
  have hbe : excL ((m.bits.drop (index / m.blockSize * m.blockSize)).take
      (index - index / m.blockSize * m.blockSize + 1)) =
      exc m.bits (index + 1) - exc m.bits (index / m.blockSize * m.blockSize) := by
    rw [excL_slice]
    have hmin : min (index - index / m.blockSize * m.blockSize + 1)
        (m.bits.length - index / m.blockSize * m.blockSize) =
        index - index / m.blockSize * m.blockSize + 1 := by
      apply Nat.min_eq_left
      omega
    rw [hmin]
    have : index / m.blockSize * m.blockSize +
        (index - index / m.blockSize * m.blockSize + 1) = index + 1 := by omega
    rw [this]
  simp only [hpe, hbe]
  congr 1
  omega

end SuccinctTrees

namespace SuccinctTrees

theorem exc_min_len (B : List Bool) (k : Nat) : exc B (min k B.length) = exc B k := by
  rcases le_total k B.length with h | h
  · rw [Nat.min_eq_left h]
  · rw [Nat.min_eq_right h, exc_of_length_le B (le_refl _), exc_of_length_le B h]

theorem MinMax.len_le_nb_mul (m : MinMax) (hbs : 1 ≤ m.blockSize) :
    m.bits.length ≤ m.numberOfBlocks * m.blockSize := by
  unfold MinMax.numberOfBlocks
  have hdm : m.blockSize * (m.bits.length / m.blockSize) + m.bits.length % m.blockSize =
      m.bits.length := Nat.div_add_mod _ _
  have hmod : m.bits.length % m.blockSize < m.blockSize :=
    Nat.mod_lt _ (by omega)
  by_cases h : m.bits.length % m.blockSize ≠ 0
  · rw [if_pos h, Nat.add_mul, one_mul, Nat.mul_comm]
    omega
  · rw [if_neg h, Nat.mul_comm]
    push_neg at h
    omega

theorem MinMax.seg_length (m : MinMax) (i : Nat) :
    (m.seg i).length =
      min (m.wid i * m.blockSize) (m.bits.length - m.lo i * m.blockSize) := by
  unfold MinMax.seg
  exact slice_length _ _ _

theorem MinMax.excess_seg (m : MinMax) {i : Nat} (hi : i < m.heapLen) :
    (m.heapGet i).excess =
      exc m.bits (m.lo i * m.blockSize + (m.seg i).length) -
        exc m.bits (m.lo i * m.blockSize) := by
  rw [(m.heap_summarizes i hi).1, m.seg_length]
  conv_lhs => unfold MinMax.seg
  rw [excL_slice]

theorem MinMax.exc_seg_k (m : MinMax) (i k : Nat) (hk : k ≤ (m.seg i).length) :
    exc (m.seg i) k =
      exc m.bits (m.lo i * m.blockSize + k) - exc m.bits (m.lo i * m.blockSize) := by
  have hsl := m.seg_length i
  have hk' : k ≤ m.wid i * m.blockSize := by omega
  unfold MinMax.seg
  exact exc_slice _ _ _ _ hk'

/-- The range test of the search phases triggers at a heap node exactly when
the absolute target excess `t` is attained at some prefix length inside the
node's segment. -/
theorem MinMax.trigger_iff (m : MinMax) (hbs : 1 ≤ m.blockSize) {i : Nat}
    (hi : i < m.heapLen) (hne : m.lo i * m.blockSize < m.bits.length) (t : Int) :
    (t - exc m.bits (m.lo i * m.blockSize) ≤ (m.heapGet i).maxExcess ∧
        (m.heapGet i).minExcess ≤ t - exc m.bits (m.lo i * m.blockSize)) ↔
      (∃ q, m.lo i * m.blockSize < q ∧ q ≤ m.lo i * m.blockSize + (m.seg i).length ∧
        q ≤ m.bits.length ∧ exc m.bits q = t) := by
  obtain ⟨hex, hbits, hnm, hbnd, hatt⟩ := m.heap_summarizes i hi
  have hwp := m.wid_pos hi
  have hslen := m.seg_length i
  have hn : 0 < (m.seg i).length := by
    have hwbs : 0 < m.wid i * m.blockSize := Nat.mul_pos hwp (by omega)
    omega
  have hnnil : m.seg i ≠ [] := by
    intro hc
    rw [hc] at hn
    simp at hn
  constructor
  · rintro ⟨hmax, hmin⟩
    obtain ⟨⟨km, hkm1, hkm2, hkm3⟩, ⟨kM, hkM1, hkM2, hkM3⟩⟩ := hatt hnnil
    have hget : ∀ c, 1 ≤ c → c ≤ (m.seg i).length →
        exc (m.seg i) c = t - exc m.bits (m.lo i * m.blockSize) →
        ∃ q, m.lo i * m.blockSize < q ∧ q ≤ m.lo i * m.blockSize + (m.seg i).length ∧
          q ≤ m.bits.length ∧ exc m.bits q = t := by
      intro c hc1 hc2 hc3
      refine ⟨m.lo i * m.blockSize + c, by omega, by omega, by omega, ?_⟩
      have := m.exc_seg_k i c hc2
      rw [this] at hc3
      omega
    rcases le_total km kM with hor | hor
    · obtain ⟨c, hc1, hc2, hc3⟩ := exc_ivt_ge (m.seg i)
        (t - exc m.bits (m.lo i * m.blockSize)) (kM - km) km kM (le_refl _) hor
        (by rw [hkM3]; exact hmax) (by rw [hkm3]; exact hmin)
      exact hget c (by omega) (by omega) hc3
    · obtain ⟨c, hc1, hc2, hc3⟩ := exc_ivt_le (m.seg i)
        (t - exc m.bits (m.lo i * m.blockSize)) (km - kM) kM km (le_refl _) hor
        (by rw [hkm3]; exact hmin) (by rw [hkM3]; exact hmax)
      exact hget c (by omega) (by omega) hc3
  · rintro ⟨q, hq1, hq2, hq3, hq4⟩
    have hk1 : 1 ≤ q - m.lo i * m.blockSize := by omega
    have hk2 : q - m.lo i * m.blockSize ≤ (m.seg i).length := by omega
    have hkv := m.exc_seg_k i (q - m.lo i * m.blockSize) hk2
    have hq' : m.lo i * m.blockSize + (q - m.lo i * m.blockSize) = q := by omega
    rw [hq', hq4] at hkv
    obtain ⟨h1, h2⟩ := hbnd (q - m.lo i * m.blockSize) hk1 hk2
    rw [hkv] at h1 h2
    exact ⟨h2, h1⟩

theorem MinMax.hi_left_eq_lo_right (m : MinMax) (p : Nat) :
    m.lo (2 * p + 1) + m.wid (2 * p + 1) = m.lo (2 * p + 2) := by
  rw [m.lo_left, m.wid_left, m.lo_right]

theorem MinMax.hi_right_eq_hi (m : MinMax) {p : Nat} (hp : p < m.maxBlocks - 1) :
    m.lo (2 * p + 2) + m.wid (2 * p + 2) = m.lo p + m.wid p := by
  obtain ⟨heven, -⟩ := m.wid_internal hp
  rw [m.lo_right, m.wid_right]
  omega

end SuccinctTrees

namespace SuccinctTrees

theorem MinMax.fwdBottomUp_zero (m : MinMax) (cd : Int) : m.fwdBottomUp 0 cd = none := by
  rw [MinMax.fwdBottomUp, if_pos rfl]

theorem MinMax.fwdBottomUp_even (m : MinMax) {cn : Nat} (h0 : cn ≠ 0)
    (hev : cn % 2 = 0) (cd : Int) :
    m.fwdBottomUp cn cd = m.fwdBottomUp ((cn - 1) / 2) cd := by
  rw [MinMax.fwdBottomUp, if_neg h0, if_pos hev]

theorem MinMax.fwdBottomUp_odd_hit (m : MinMax) {cn : Nat} (h0 : cn ≠ 0)
    (hev : ¬(cn % 2 = 0)) {cd : Int}
    (htr : cd ≤ (m.heapGet (cn + 1)).maxExcess ∧ (m.heapGet (cn + 1)).minExcess ≤ cd) :
    m.fwdBottomUp cn cd = some (cn + 1, cd) := by
  rw [MinMax.fwdBottomUp, if_neg h0, if_neg hev]
  simp only
  rw [if_pos htr]

theorem MinMax.fwdBottomUp_odd_miss (m : MinMax) {cn : Nat} (h0 : cn ≠ 0)
    (hev : ¬(cn % 2 = 0)) {cd : Int}
    (htr : ¬(cd ≤ (m.heapGet (cn + 1)).maxExcess ∧ (m.heapGet (cn + 1)).minExcess ≤ cd)) :
    m.fwdBottomUp cn cd = m.fwdBottomUp ((cn + 1 - 1) / 2) (cd - (m.heapGet (cn + 1)).excess) := by
  rw [MinMax.fwdBottomUp, if_neg h0, if_neg hev]
  simp only
  rw [if_neg htr]

theorem MinMax.fwdTopDown_leaf (m : MinMax) {cn : Nat} (h : m.heapLen / 2 ≤ cn) (cd : Int) :
    m.fwdTopDown cn cd = (cn, cd) := by
  rw [MinMax.fwdTopDown, if_pos h]

theorem MinMax.fwdTopDown_left (m : MinMax) {cn : Nat} (h : ¬(m.heapLen / 2 ≤ cn)) {cd : Int}
    (htr : cd ≤ (m.heapGet (2 * cn + 1)).maxExcess ∧ (m.heapGet (2 * cn + 1)).minExcess ≤ cd) :
    m.fwdTopDown cn cd = m.fwdTopDown (2 * cn + 1) cd := by
  rw [MinMax.fwdTopDown, if_neg h]
  simp only
  rw [if_pos htr]

theorem MinMax.fwdTopDown_right (m : MinMax) {cn : Nat} (h : ¬(m.heapLen / 2 ≤ cn)) {cd : Int}
    (htr : ¬(cd ≤ (m.heapGet (2 * cn + 1)).maxExcess ∧
      (m.heapGet (2 * cn + 1)).minExcess ≤ cd)) :
    m.fwdTopDown cn cd = m.fwdTopDown (2 * cn + 2) (cd - (m.heapGet (2 * cn + 1)).excess) := by
  rw [MinMax.fwdTopDown, if_neg h]
  simp only
  rw [if_neg htr]

/-- The initial in-block scan of `fwd_search` finds the first position after
the start whose excess equals the absolute target `tgt + c`, provided that
position lies within the block. -/
theorem fwdScan_found (B : List Bool) (eob : Nat) (tgt c : Int) :
    ∀ n (p : Nat) (ce : Int), eob - 1 - p ≤ n → ce + c = exc B (p + 1) →
      ∀ j, p < j → j ≤ eob - 1 → j < B.length → exc B (j + 1) = tgt + c →
        (∀ q, p + 1 < q → q ≤ j → exc B q ≠ tgt + c) →
        fwdScan B eob tgt p ce = some (true, j, tgt) := by
  intro n
  induction n with
  | zero =>
    intro p ce hn hc j hj1 hj2 hj3 hj4 hmin
    exact absurd hj1 (by omega)
  | succ n ih =>
    intro p ce hn hc j hj1 hj2 hj3 hj4 hmin
    have hplt : p < eob - 1 := by omega
    have hp1 : p + 1 < B.length := by omega
    have hread : B[p + 1]? = some (B.getD (p + 1) false) := by
      rw [List.getD_eq_getElem?_getD, List.getElem?_eq_getElem hp1]
      rfl
    rw [fwdScan, if_pos hplt]
    simp only [hread]
    have hstep : ce + bDelta (B.getD (p + 1) false) + c = exc B (p + 1 + 1) := by
      rw [exc_succ B (p + 1) hp1]
      omega
    rw [show p + 1 + 1 = p + 2 from by omega] at hstep
    by_cases hhit : ce + bDelta (B.getD (p + 1) false) = tgt
    · have hjeq : j = p + 1 := by
        by_contra hne
        exact hmin (p + 2) (by omega) (by omega) (by omega)
      subst hjeq
      rw [if_pos hhit, hhit]
    · rw [if_neg hhit]
      have hj1' : p + 1 < j := by
        rcases Nat.lt_or_ge (p + 1) j with h | h
        · exact h
        · exfalso
          have hje : j = p + 1 := by omega
          apply hhit
          rw [hje, show p + 1 + 1 = p + 2 from by omega] at hj4
          omega
      exact ih (p + 1) (ce + bDelta (B.getD (p + 1) false)) (by omega) hstep j hj1' hj2 hj3
        hj4 (fun q h1 h2 => hmin q (by omega) h2)

/-- The initial in-block scan of `fwd_search` reaches the block end without a
hit when the absolute target does not occur in the scanned range. -/
theorem fwdScan_miss (B : List Bool) (eob : Nat) (tgt c : Int) (heob1 : 1 ≤ eob)
    (heobL : eob ≤ B.length) :
    ∀ n (p : Nat) (ce : Int), eob - 1 - p ≤ n → ce + c = exc B (p + 1) → p ≤ eob - 1 →
      (∀ q, p + 1 < q → q ≤ eob → exc B q ≠ tgt + c) →
      fwdScan B eob tgt p ce = some (false, eob - 1, exc B eob - c) := by
  intro n
  induction n with
  | zero =>
    intro p ce hn hc hple hmin
    have hpe : p = eob - 1 := by omega
    rw [fwdScan, if_neg (by omega)]
    have hce : ce = exc B eob - c := by
      have h1 : p + 1 = eob := by omega
      rw [h1] at hc
      omega
    rw [hpe, hce]
  | succ n ih =>
    intro p ce hn hc hple hmin
    by_cases hplt : p < eob - 1
    · have hp1 : p + 1 < B.length := by omega
      have hread : B[p + 1]? = some (B.getD (p + 1) false) := by
        rw [List.getD_eq_getElem?_getD, List.getElem?_eq_getElem hp1]
        rfl
      rw [fwdScan, if_pos hplt]
      simp only [hread]
      have hstep : ce + bDelta (B.getD (p + 1) false) + c = exc B (p + 1 + 1) := by
        rw [exc_succ B (p + 1) hp1]
        omega
      rw [show p + 1 + 1 = p + 2 from by omega] at hstep
      have hne : ¬(ce + bDelta (B.getD (p + 1) false) = tgt) := by
        intro hcontr
        exact hmin (p + 2) (by omega) (by omega) (by omega)
      rw [if_neg hne]
      exact ih (p + 1) _ (by omega) hstep (by omega) (fun q h1 h2 => hmin q (by omega) h2)
    · have hpe : p = eob - 1 := by omega
      rw [fwdScan, if_neg (by omega)]
      have hce : ce = exc B eob - c := by
        have h1 : p + 1 = eob := by omega
        rw [h1] at hc
        omega
      rw [hpe, hce]

/-- The final block scan of `fwd_search` stops exactly at the first position
of the block whose successor excess equals the absolute target `t`. -/
theorem fwdBlockScan_found (B : List Bool) (endT : Nat) (t : Int) :
    ∀ n (p : Nat), endT - p ≤ n → ∀ qs, p < qs → qs ≤ endT → qs ≤ B.length →
      exc B qs = t → (∀ q, p < q → q < qs → exc B q ≠ t) →
      fwdBlockScan B endT p (t - exc B p) = some (true, qs - 1) := by
  intro n
  induction n with
  | zero =>
    intro p hn qs h1 h2 h3 ht hmin
    exact absurd h1 (by omega)
  | succ n ih =>
    intro p hn qs h1 h2 h3 ht hmin
    rw [fwdBlockScan, if_pos (by omega : p < endT)]
    have hpB : p < B.length := by omega
    have hread : B[p]? = some (B.getD p false) := by
      rw [List.getD_eq_getElem?_getD, List.getElem?_eq_getElem hpB]
      rfl
    simp only [hread]
    have hstep : t - exc B p - bDelta (B.getD p false) = t - exc B (p + 1) := by
      rw [exc_succ B p hpB]
      ring
    by_cases hhit : t - exc B p - bDelta (B.getD p false) = 0
    · have hx : exc B (p + 1) = t := by omega
      have hq : qs = p + 1 := by
        by_contra hne
        exact hmin (p + 1) (by omega) (by omega) hx
      rw [if_pos hhit, hq]
      simp
    · rw [if_neg hhit, hstep]
      have hqs : qs ≠ p + 1 := by
        intro he
        apply hhit
        rw [hstep, ← he, ht]
        ring
      exact ih (p + 1) (by omega) qs (by omega) h2 h3 ht
        (fun q hq1 hq2 => hmin q (by omega) hq2)

end SuccinctTrees

namespace SuccinctTrees

/-- Bottom-up phase correctness of `fwd_search`: when the first occurrence
`qs` of the absolute target excess `t` lies strictly beyond the range covered
so far, the climb stops at the lowest right sibling whose segment contains
`qs`, with the residual rebased to the sibling's segment start. -/
theorem MinMax.fwdBottomUp_spec (m : MinMax) (hbs : 1 ≤ m.blockSize) (t : Int)
    (qs a0 : Nat) (hqL : qs ≤ m.bits.length) (hqt : exc m.bits qs = t)
    (hmin : ∀ q, a0 < q → q < qs → q ≤ m.bits.length → exc m.bits q ≠ t) :
    ∀ cn, cn < m.heapLen →
      a0 ≤ (m.lo cn + m.wid cn) * m.blockSize →
      (m.lo cn + m.wid cn) * m.blockSize < qs →
      ∃ sib, m.fwdBottomUp cn (t - exc m.bits ((m.lo cn + m.wid cn) * m.blockSize)) =
          some (sib, t - exc m.bits (m.lo sib * m.blockSize)) ∧
        sib < m.heapLen ∧ a0 ≤ m.lo sib * m.blockSize ∧
        m.lo sib * m.blockSize < qs ∧
        qs ≤ m.lo sib * m.blockSize + (m.seg sib).length := by
  intro cn
  induction cn using Nat.strong_induction_on with
  | _ cn ih =>
    intro hcn ha0 hhi
    have hhl : m.heapLen = 2 * m.maxBlocks - 1 := rfl
    have hmb := m.maxBlocks_pos
    by_cases h0 : cn = 0
    · exfalso
      subst h0
      rw [m.lo_zero, m.wid_zero, Nat.zero_add] at hhi
      have h1 := m.len_le_nb_mul hbs
      have h2 : m.numberOfBlocks * m.blockSize ≤ m.maxBlocks * m.blockSize :=
        Nat.mul_le_mul_right _ m.nb_le_mb
      omega
    by_cases hev : cn % 2 = 0
    · rw [m.fwdBottomUp_even h0 hev]
      have hp2 : cn = 2 * ((cn - 1) / 2) + 2 := by omega
      have hplt : (cn - 1) / 2 < m.maxBlocks - 1 := by omega
      have hhip := m.hi_right_eq_hi hplt
      rw [← hp2] at hhip
      have hmul : (m.lo ((cn - 1) / 2) + m.wid ((cn - 1) / 2)) * m.blockSize =
          (m.lo cn + m.wid cn) * m.blockSize := by rw [← hhip]
      rw [← hmul]
      exact ih ((cn - 1) / 2) (by omega) (by omega) (by omega) (by omega)
    · -- cn is odd: the inspected sibling is cn + 1
      have hodd : cn % 2 = 1 := by omega
      have hp : cn = 2 * ((cn - 1) / 2) + 1 := by omega
      have hsiblt : cn + 1 < m.heapLen := by omega
      have hlosib : m.lo (cn + 1) * m.blockSize = (m.lo cn + m.wid cn) * m.blockSize := by
        have := m.hi_left_eq_lo_right ((cn - 1) / 2)
        rw [← hp] at this
        rw [show cn + 1 = 2 * ((cn - 1) / 2) + 2 from by omega, ← this]
      have hloL : m.lo (cn + 1) * m.blockSize < m.bits.length := by
        rw [hlosib]; omega
      by_cases hql : qs ≤ m.lo (cn + 1) * m.blockSize + (m.seg (cn + 1)).length
      · have htr := (m.trigger_iff hbs hsiblt hloL t).mpr
          ⟨qs, by rw [hlosib]; omega, hql, hqL, hqt⟩
        rw [show t - exc m.bits ((m.lo cn + m.wid cn) * m.blockSize) =
          t - exc m.bits (m.lo (cn + 1) * m.blockSize) from by rw [hlosib]]
        rw [m.fwdBottomUp_odd_hit h0 hev htr]
        exact ⟨cn + 1, rfl, hsiblt, by rw [hlosib]; omega, by rw [hlosib]; omega, hql⟩
      · push_neg at hql
        have hntr : ¬(t - exc m.bits (m.lo (cn + 1) * m.blockSize) ≤
            (m.heapGet (cn + 1)).maxExcess ∧
            (m.heapGet (cn + 1)).minExcess ≤ t - exc m.bits (m.lo (cn + 1) * m.blockSize)) := by
          intro htr
          obtain ⟨q, hq1, hq2, hq3, hq4⟩ := (m.trigger_iff hbs hsiblt hloL t).mp htr
          rw [hlosib] at hq1
          exact hmin q (by omega) (by omega) hq3 hq4
        rw [show t - exc m.bits ((m.lo cn + m.wid cn) * m.blockSize) =
          t - exc m.bits (m.lo (cn + 1) * m.blockSize) from by rw [hlosib]]
        rw [m.fwdBottomUp_odd_miss h0 hev hntr]
        -- the parent of the sibling is the parent of cn
        have hpar : (cn + 1 - 1) / 2 = (cn - 1) / 2 := by omega
        have hplt : (cn - 1) / 2 < m.maxBlocks - 1 := by omega
        have hsib2 : cn + 1 = 2 * ((cn - 1) / 2) + 2 := by omega
        have hhip := m.hi_right_eq_hi hplt
        rw [← hsib2] at hhip
        -- residual after deducting the sibling's excess
        have hexc := m.excess_seg hsiblt
        have hseglen := m.seg_length (cn + 1)
        have hup : m.lo (cn + 1) * m.blockSize + (m.seg (cn + 1)).length =
            min ((m.lo (cn + 1) + m.wid (cn + 1)) * m.blockSize) m.bits.length := by
          rw [Nat.add_mul]
          omega
        have hq2 : (m.lo (cn + 1) + m.wid (cn + 1)) * m.blockSize < qs := by
          rcases le_total ((m.lo (cn + 1) + m.wid (cn + 1)) * m.blockSize) m.bits.length
            with h | h
          · rw [Nat.min_eq_left h] at hup; omega
          · rw [Nat.min_eq_right h] at hup; omega
        have hresid : t - exc m.bits (m.lo (cn + 1) * m.blockSize) -
            (m.heapGet (cn + 1)).excess =
            t - exc m.bits ((m.lo ((cn - 1) / 2) + m.wid ((cn - 1) / 2)) * m.blockSize) := by
          rw [hexc, hup]
          rw [exc_min_len m.bits ((m.lo (cn + 1) + m.wid (cn + 1)) * m.blockSize)]
          rw [hhip]
          ring
        rw [hpar, hresid]
        have hmul2 : (m.lo (cn + 1) + m.wid (cn + 1)) * m.blockSize =
            (m.lo ((cn - 1) / 2) + m.wid ((cn - 1) / 2)) * m.blockSize := by rw [hhip]
        have hmono : m.lo (cn + 1) * m.blockSize ≤
            (m.lo (cn + 1) + m.wid (cn + 1)) * m.blockSize :=
          Nat.mul_le_mul_right _ (Nat.le_add_right _ _)
        exact ih ((cn - 1) / 2) (by omega) (by omega) (by omega) (by omega)

end SuccinctTrees

namespace SuccinctTrees

/-- Top-down phase correctness of `fwd_search`: starting from a node whose
segment contains the first occurrence `qs` of the absolute target `t` (with
no earlier occurrence past `a0`), the descent ends at the leaf whose block
contains `qs`, keeping the residual rebased to the leaf's block start. -/
theorem MinMax.fwdTopDown_spec (m : MinMax) (hbs : 1 ≤ m.blockSize) (t : Int)
    (qs a0 : Nat) (hqL : qs ≤ m.bits.length) (hqt : exc m.bits qs = t)
    (hmin : ∀ q, a0 < q → q < qs → q ≤ m.bits.length → exc m.bits q ≠ t) :
    ∀ n cn, m.heapLen - cn ≤ n → cn < m.heapLen →
      a0 ≤ m.lo cn * m.blockSize → m.lo cn * m.blockSize < qs →
      qs ≤ m.lo cn * m.blockSize + (m.seg cn).length →
      ∃ leaf, m.fwdTopDown cn (t - exc m.bits (m.lo cn * m.blockSize)) =
          (leaf, t - exc m.bits (m.lo leaf * m.blockSize)) ∧
        m.heapLen / 2 ≤ leaf ∧ leaf < m.heapLen ∧
        a0 ≤ m.lo leaf * m.blockSize ∧ m.lo leaf * m.blockSize < qs ∧
        qs ≤ m.lo leaf * m.blockSize + (m.seg leaf).length := by
  intro n
  induction n with
  | zero =>
    intro cn hn hcn _ _ _
    exact absurd hcn (by omega)
  | succ n ih =>
    intro cn hn hcn ha0 hloq hqhi
    by_cases hleafc : m.heapLen / 2 ≤ cn
    · exact ⟨cn, m.fwdTopDown_leaf hleafc _, hleafc, hcn, ha0, hloq, hqhi⟩
    · push_neg at hleafc
      have hhl2 := m.heapLen_div2
      have hhl : m.heapLen = 2 * m.maxBlocks - 1 := rfl
      have hmb := m.maxBlocks_pos
      have hcint : cn < m.maxBlocks - 1 := by omega
      have hlc : 2 * cn + 1 < m.heapLen := by omega
      have hrc : 2 * cn + 2 < m.heapLen := by omega
      have hlolc : m.lo (2 * cn + 1) = m.lo cn := m.lo_left cn
      have hlolcm : m.lo (2 * cn + 1) * m.blockSize = m.lo cn * m.blockSize := by
        rw [hlolc]
      have hloL : m.lo (2 * cn + 1) * m.blockSize < m.bits.length := by
        rw [hlolcm]
        omega
      have hsplit := m.seg_split hcint
      have hlen : (m.seg cn).length =
          (m.seg (2 * cn + 1)).length + (m.seg (2 * cn + 2)).length := by
        rw [hsplit, List.length_append]
      by_cases hql : qs ≤ m.lo cn * m.blockSize + (m.seg (2 * cn + 1)).length
      · have htr := (m.trigger_iff hbs hlc hloL t).mpr
          ⟨qs, by rw [hlolcm]; omega, by rw [hlolcm]; omega, hqL, hqt⟩
        rw [show t - exc m.bits (m.lo cn * m.blockSize) =
          t - exc m.bits (m.lo (2 * cn + 1) * m.blockSize) from by rw [hlolcm]]
        rw [m.fwdTopDown_left (by omega) htr]
        exact ih (2 * cn + 1) (by omega) hlc (by omega) (by omega) (by rw [hlolcm]; omega)
      · push_neg at hql
        have hntr : ¬(t - exc m.bits (m.lo (2 * cn + 1) * m.blockSize) ≤
            (m.heapGet (2 * cn + 1)).maxExcess ∧
            (m.heapGet (2 * cn + 1)).minExcess ≤
              t - exc m.bits (m.lo (2 * cn + 1) * m.blockSize)) := by
          intro htr
          obtain ⟨q, hq1, hq2, hq3, hq4⟩ := (m.trigger_iff hbs hlc hloL t).mp htr
          rw [hlolcm] at hq1 hq2
          exact hmin q (by omega) (by omega) hq3 hq4
        rw [show t - exc m.bits (m.lo cn * m.blockSize) =
          t - exc m.bits (m.lo (2 * cn + 1) * m.blockSize) from by rw [hlolcm]]
        rw [m.fwdTopDown_right (by omega) hntr]
        -- rebase the residual to the right child's segment start
        have hexc := m.excess_seg hlc
        have hseglen := m.seg_length (2 * cn + 1)
        have hwlc : m.wid (2 * cn + 1) = m.wid cn / 2 := m.wid_left cn
        have hlorc : m.lo (2 * cn + 2) * m.blockSize =
            m.lo cn * m.blockSize + m.wid (2 * cn + 1) * m.blockSize := by
          rw [m.lo_right, Nat.add_mul, hwlc]
        have hup : m.lo (2 * cn + 1) * m.blockSize + (m.seg (2 * cn + 1)).length =
            min (m.lo (2 * cn + 2) * m.blockSize) m.bits.length := by
          rw [hlorc, hlolcm]
          omega
        have hresid : t - exc m.bits (m.lo (2 * cn + 1) * m.blockSize) -
            (m.heapGet (2 * cn + 1)).excess =
            t - exc m.bits (m.lo (2 * cn + 2) * m.blockSize) := by
          rw [hexc, hup, exc_min_len m.bits (m.lo (2 * cn + 2) * m.blockSize)]
          ring
        rw [hresid]
        have hlorcq : m.lo (2 * cn + 2) * m.blockSize < qs := by
          rcases le_total (m.lo (2 * cn + 2) * m.blockSize) m.bits.length with h | h
          · rw [Nat.min_eq_left h] at hup
            rw [hlolcm] at hup
            omega
          · rw [Nat.min_eq_right h] at hup
            rw [hlolcm] at hup
            omega
        have hmono : min (m.lo (2 * cn + 2) * m.blockSize) m.bits.length ≤
            m.lo (2 * cn + 2) * m.blockSize := Nat.min_le_left _ _
        refine ih (2 * cn + 2) (by omega) hrc (by omega) hlorcq ?_
        -- qs lies in the right child's segment
        rw [hlolcm] at hup
        omega
  done

end SuccinctTrees

namespace SuccinctTrees

/-- `MinMax::fwd_search` finds (the position before) the first prefix length
`qs` past `index + 1` whose excess equals `E(index) + diff - 1 + 1`, i.e. the
first position `j > index` with `E(j) = E(index) + diff - 1`, whenever one
exists. -/
theorem MinMax.fwdSearch_eq (m : MinMax) (hbs : 1 ≤ m.blockSize) (index : Nat) (diff : Int)
    (qs : Nat) (hq0 : index + 1 < qs) (hqL : qs ≤ m.bits.length)
    (hqt : exc m.bits qs = exc m.bits (index + 1) + (diff - 1))
    (hmin : ∀ q, index + 1 < q → q < qs → q ≤ m.bits.length →
      exc m.bits q ≠ exc m.bits (index + 1) + (diff - 1)) :
    m.fwdSearch index diff = some (qs - 1) := by
  have hbs0 : 0 < m.blockSize := by omega
  have hLpos : index < m.bits.length := by omega
  have hdm : m.blockSize * (index / m.blockSize) + index % m.blockSize = index :=
    Nat.div_add_mod _ _
  have hmod : index % m.blockSize < m.blockSize := Nat.mod_lt _ hbs0
  have hco : index / m.blockSize * m.blockSize = m.blockSize * (index / m.blockSize) :=
    Nat.mul_comm _ _
  have hieob : index < index / m.blockSize * m.blockSize + m.blockSize := by omega
  by_cases hcase : qs ≤ index / m.blockSize * m.blockSize + m.blockSize
  · -- the first hit lies inside index's block: the initial scan finds it
    have hj1eq : qs - 1 + 1 = qs := by omega
    have hscan : fwdScan m.bits (index / m.blockSize * m.blockSize + m.blockSize)
        (diff - 1) index 0 = some (true, qs - 1, diff - 1) := by
      refine fwdScan_found m.bits (index / m.blockSize * m.blockSize + m.blockSize)
        (diff - 1) (exc m.bits (index + 1))
        (index / m.blockSize * m.blockSize + m.blockSize) index 0 (by omega)
        (zero_add _) (qs - 1) (by omega) (by omega) (by omega) ?_ ?_
      · rw [hj1eq, hqt]
        ring
      · intro q h1 h2 hcontr
        exact hmin q h1 (by omega) (by omega) (by rw [hcontr]; ring)
    rw [MinMax.fwdSearch]
    simp only [hscan]
  · -- the first hit lies beyond index's block
    push_neg at hcase
    have heobL : index / m.blockSize * m.blockSize + m.blockSize ≤ m.bits.length := by
      omega
    have hscan : fwdScan m.bits (index / m.blockSize * m.blockSize + m.blockSize)
        (diff - 1) index 0 = some (false, index / m.blockSize * m.blockSize + m.blockSize - 1,
          exc m.bits (index / m.blockSize * m.blockSize + m.blockSize) -
            exc m.bits (index + 1)) := by
      refine fwdScan_miss m.bits (index / m.blockSize * m.blockSize + m.blockSize)
        (diff - 1) (exc m.bits (index + 1)) (by omega) heobL
        (index / m.blockSize * m.blockSize + m.blockSize) index 0 (by omega)
        (zero_add _) (by omega) ?_
      intro q h1 h2 hcontr
      exact hmin q h1 (by omega) (by omega) (by rw [hcontr]; ring)
    have hbn : index / m.blockSize < m.numberOfBlocks := m.blockNumber_lt hbs hLpos
    obtain ⟨hlo0, hwid0, hlt0⟩ := m.leaf_of_block hbn
    have hhl2 := m.heapLen_div2
    have hcn0 : m.heapLen / 2 + index / m.blockSize =
        index / m.blockSize + (m.maxBlocks - 1) := by omega
    have hhicn0 : (m.lo (index / m.blockSize + (m.maxBlocks - 1)) +
        m.wid (index / m.blockSize + (m.maxBlocks - 1))) * m.blockSize =
        index / m.blockSize * m.blockSize + m.blockSize := by
      rw [hlo0, hwid0, Nat.add_mul, one_mul]
    have harg : diff - 1 -
        (exc m.bits (index / m.blockSize * m.blockSize + m.blockSize) -
          exc m.bits (index + 1)) =
        exc m.bits (index + 1) + (diff - 1) -
          exc m.bits ((m.lo (index / m.blockSize + (m.maxBlocks - 1)) +
            m.wid (index / m.blockSize + (m.maxBlocks - 1))) * m.blockSize) := by
      rw [hhicn0]
      ring
    obtain ⟨sib, hbu, hsibl, hsa0, hsq, hsqhi⟩ :=
      m.fwdBottomUp_spec hbs (exc m.bits (index + 1) + (diff - 1)) qs (index + 1)
        hqL hqt hmin (index / m.blockSize + (m.maxBlocks - 1)) hlt0
        (by rw [hhicn0]; omega) (by rw [hhicn0]; omega)
    obtain ⟨leaf, htd, hleaf1, hleaf2, hla0, hlq, hlhi⟩ :=
      m.fwdTopDown_spec hbs (exc m.bits (index + 1) + (diff - 1)) qs (index + 1)
        hqL hqt hmin m.heapLen sib (by omega) hsibl hsa0 hsq hsqhi
    obtain ⟨hlleaf, hwleaf⟩ := m.leaf_lo_wid (by omega) hleaf2
    have hbstart : (leaf - m.heapLen / 2) * m.blockSize = m.lo leaf * m.blockSize := by
      rw [hhl2, hlleaf]
    have hseglen := m.seg_length leaf
    rw [hwleaf, one_mul] at hseglen
    have hblock : fwdBlockScan m.bits (m.lo leaf * m.blockSize + m.blockSize)
        (m.lo leaf * m.blockSize)
        (exc m.bits (index + 1) + (diff - 1) - exc m.bits (m.lo leaf * m.blockSize)) =
        some (true, qs - 1) := by
      refine fwdBlockScan_found m.bits (m.lo leaf * m.blockSize + m.blockSize)
        (exc m.bits (index + 1) + (diff - 1)) (m.lo leaf * m.blockSize + m.blockSize)
        (m.lo leaf * m.blockSize) (by omega) qs hlq (by omega) hqL hqt ?_
      intro q hq1 hq2
      exact hmin q (by omega) hq2 (by omega)
    rw [MinMax.fwdSearch]
    simp only [hscan, hcn0, harg, hbu, htd, hbstart, hblock]

end SuccinctTrees

namespace SuccinctTrees

/-- C3: on a bit sequence satisfying the balanced-parentheses excess
invariant (`E(len-1) = 0` and `E(i) ≥ 1` before the end), `MinMax::find_close`
at an open position `x` returns a position `j > x` carrying a closing bit
with `E(j) = E(x) - 1`, and `j` is the smallest such position after `x` —
the matching close. -/
theorem C3_find_close (l : List Bool) (bs x : Nat) (hbs : 1 ≤ bs)
    (hbal : excL l = 0) (hpos : ∀ i, i < l.length - 1 → 1 ≤ exc l (i + 1))
    (hx : x < l.length) (hopen : l.getD x false = true) :
    ∃ j, (MinMax.mk l bs).findClose x = some j ∧ x < j ∧ l.getD j false = false ∧
      exc l (j + 1) = exc l (x + 1) - 1 ∧
      ∀ j', x < j' → j' < j →
        ¬(l.getD j' false = false ∧ exc l (j' + 1) = exc l (x + 1) - 1) := by
  have hnn : ∀ q, q ≤ l.length → 0 ≤ exc l q := by
    intro q hq
    rcases Nat.eq_zero_or_pos q with h0 | hq1
    · subst h0
      rw [exc_zero]
    · rcases Nat.eq_or_lt_of_le hq with he | hlt
      · rw [he, exc_length, hbal]
      · have := hpos (q - 1) (by omega)
        rw [show q - 1 + 1 = q from by omega] at this
        omega
  have hAx1 : exc l (x + 1) = exc l x + 1 := by
    rw [exc_succ l x hx, hopen]
    rfl
  have hAx0 : 0 ≤ exc l x := hnn x (by omega)
  have hAlen : exc l l.length = 0 := by rw [exc_length, hbal]
  set t := exc l (x + 1) - 1 with ht
  have hex : ∃ q, x + 1 < q ∧ q ≤ l.length ∧ exc l q = t := by
    obtain ⟨c, hc1, hc2, hc3⟩ := exc_ivt_le l t (l.length - (x + 1)) (x + 1) l.length
      (le_refl _) (by omega) (by omega) (by omega)
    have hcx : c ≠ x + 1 := by
      intro he
      rw [he] at hc3
      omega
    exact ⟨c, by omega, hc2, hc3⟩
  obtain ⟨qs, ⟨hqs1, hqs2, hqs3⟩, hqmin⟩ :
      ∃ qs, (x + 1 < qs ∧ qs ≤ l.length ∧ exc l qs = t) ∧
        ∀ q, q < qs → ¬(x + 1 < q ∧ q ≤ l.length ∧ exc l q = t) :=
    ⟨Nat.find hex, Nat.find_spec hex, fun q hq => Nat.find_min hex hq⟩
  have hqt' : exc l qs = exc l (x + 1) + (0 - 1) := by omega
  have hmin' : ∀ q, x + 1 < q → q < qs → q ≤ l.length →
      exc l q ≠ exc l (x + 1) + (0 - 1) := by
    intro q h1 h2 h3 hcontr
    exact hqmin q h2 ⟨h1, h3, by omega⟩
  have hfs : (MinMax.mk l bs).fwdSearch x 0 = some (qs - 1) :=
    MinMax.fwdSearch_eq (MinMax.mk l bs) hbs x 0 qs hqs1 hqs2 hqt' hmin'
  have hjlt : qs - 1 < l.length := by omega
  have hstep : exc l (qs - 1 + 1) = exc l (qs - 1) + bDelta (l.getD (qs - 1) false) :=
    exc_succ l (qs - 1) hjlt
  rw [show qs - 1 + 1 = qs from by omega] at hstep
  have hAj : exc l (qs - 1) = t + 1 := by
    by_cases hj : qs - 1 = x + 1
    · rw [hj]
      omega
    · have hcases : exc l (qs - 1) = t + 1 ∨ exc l (qs - 1) = t - 1 := by
        have hb : bDelta (l.getD (qs - 1) false) = 1 ∨
            bDelta (l.getD (qs - 1) false) = -1 := by
          cases l.getD (qs - 1) false <;> simp [bDelta]
        rcases hb with h | h <;> rw [h] at hstep <;> omega
      rcases hcases with h | h
      · exact h
      · exfalso
        obtain ⟨c, hc1, hc2, hc3⟩ := exc_ivt_le l t (qs - 1 - (x + 1)) (x + 1) (qs - 1)
          (le_refl _) (by omega) (by omega) (by omega)
        have hcx : c ≠ x + 1 := by
          intro he
          rw [he] at hc3
          omega
        exact hqmin c (by omega) ⟨by omega, by omega, hc3⟩
  have hbfalse : l.getD (qs - 1) false = false := by
    cases hgb : l.getD (qs - 1) false
    · rfl
    · exfalso
      rw [hgb] at hstep
      simp [bDelta] at hstep
      omega
  refine ⟨qs - 1, ?_, by omega, hbfalse, ?_, ?_⟩
  · rw [MinMax.findClose]
    exact hfs
  · rw [show qs - 1 + 1 = qs from by omega, hqs3]
  · intro j' h1 h2 hcon
    exact hqmin (j' + 1) (by omega) ⟨by omega, by omega, by rw [hcon.2]⟩

/-- Concrete instantiation of `C3_find_close` on the sequence 1100 at the
root's open position. -/
theorem C3_find_close_witness :
    (1 ≤ 1024 ∧ excL [true, true, false, false] = 0 ∧
      (∀ i, i < [true, true, false, false].length - 1 →
        1 ≤ exc [true, true, false, false] (i + 1)) ∧
      0 < [true, true, false, false].length ∧
      [true, true, false, false].getD 0 false = true) ∧
    (∃ j, (MinMax.mk [true, true, false, false] 1024).findClose 0 = some j ∧ 0 < j ∧
      [true, true, false, false].getD j false = false ∧
      exc [true, true, false, false] (j + 1) = exc [true, true, false, false] (0 + 1) - 1 ∧
      ∀ j', 0 < j' → j' < j →
        ¬([true, true, false, false].getD j' false = false ∧
          exc [true, true, false, false] (j' + 1) =
            exc [true, true, false, false] (0 + 1) - 1)) :=
  ⟨⟨by decide, by decide, by decide, by decide, by decide⟩,
    C3_find_close [true, true, false, false] 1024 0 (by decide) (by decide) (by decide)
      (by decide) (by decide)⟩

end SuccinctTrees

namespace SuccinctTrees

theorem excL_count (l : List Bool) :
    excL l = (l.count true : Int) - (l.count false : Int) := by
  induction l with
  | nil => simp [excL]
  | cons b r ih =>
    cases b <;> simp [excL, bDelta, List.count_cons, ih] <;> push_cast <;> ring

theorem count_length (l : List Bool) : l.count true + l.count false = l.length := by
  induction l with
  | nil => simp
  | cons b r ih =>
    cases b <;> simp [List.count_cons] <;> omega

theorem count_take_add (b : Bool) (B : List Bool) (a k : Nat) :
    (B.take (a + k)).count b = (B.take a).count b + ((B.drop a).take k).count b := by
  rw [List.take_add, List.count_append]

theorem count_take_le (b : Bool) (B : List Bool) {a a' : Nat} (h : a ≤ a') :
    (B.take a).count b ≤ (B.take a').count b := by
  have h1 : (B.take a').take a = B.take a := by
    rw [List.take_take, Nat.min_eq_left h]
  calc (B.take a).count b = ((B.take a').take a).count b := by rw [h1]
    _ ≤ (B.take a').count b := (List.take_sublist _ _).count_le b

theorem count_take_succ (b : Bool) (B : List Bool) {j : Nat} (hj : j < B.length) :
    (B.take (j + 1)).count b =
      (B.take j).count b + (if B.getD j false = b then 1 else 0) := by
  rw [List.take_succ]
  have hsome : B[j]? = some (B.getD j false) := by
    rw [List.getD_eq_getElem?_getD, List.getElem?_eq_getElem hj]
    rfl
  rw [hsome]
  by_cases h : B.getD j false = b <;>
    simp [List.count_append, List.count_cons, h]

/-- Once the remaining rank is exhausted the scan never changes its answer. -/
theorem selScanGo_zero (want : Bool) :
    ∀ (L : List Bool) (bi : Nat) (r idx : Int), r ≤ 0 →
      selScanGo want L bi r idx = idx := by
  intro L
  induction L with
  | nil => intro bi r idx hr; rfl
  | cons b rest ih =>
    intro bi r idx hr
    simp only [selScanGo]
    rw [if_neg (by intro hc; exact absurd hc.2 (by omega))]
    exact ih (bi + 1) r idx hr

/-- The leaf scan returns the block-relative position of the `r`-th `want`
bit, characterised by `r - 1` earlier `want` bits and a `want` bit there. -/
theorem selScanGo_spec (want : Bool) :
    ∀ (L : List Bool) (bi : Nat) (r idx : Int) (j : Nat), 1 ≤ r → j < L.length →
      ((L.take j).count want : Int) = r - 1 → L.getD j false = want →
      selScanGo want L bi r idx = ↑(bi + j) := by
  intro L
  induction L with
  | nil =>
    intro bi r idx j h1 h2 h3 h4
    simp at h2
  | cons b rest ih =>
    intro bi r idx j h1 h2 h3 h4
    by_cases hb : b = want
    · simp only [selScanGo]
      rw [if_pos ⟨hb, by omega⟩]
      by_cases hr1 : r = 1
      · have hj0 : j = 0 := by
          by_contra hne
          obtain ⟨j0, rfl⟩ : ∃ j0, j = j0 + 1 := ⟨j - 1, by omega⟩
          rw [List.take_succ_cons, List.count_cons] at h3
          simp [hb] at h3
          omega
        subst hj0
        rw [selScanGo_zero want rest (bi + 1) (r - 1) ↑bi (by omega)]
        simp
      · have hj0 : j ≠ 0 := by
          intro hj0
          subst hj0
          simp at h3
          omega
        obtain ⟨j0, rfl⟩ : ∃ j0, j = j0 + 1 := ⟨j - 1, by omega⟩
        rw [List.take_succ_cons, List.count_cons] at h3
        simp [hb] at h3
        rw [List.getD_cons_succ] at h4
        have hrec := ih (bi + 1) (r - 1) ↑bi j0 (by omega) (by simp at h2; omega)
          (by omega) h4
        rw [hrec]
        congr 1
        omega
    · simp only [selScanGo]
      rw [if_neg (by intro hc; exact hb hc.1)]
      have hj1 : j ≠ 0 := by
        intro hj0
        subst hj0
        rw [List.getD_cons_zero] at h4
        exact hb h4
      obtain ⟨j0, rfl⟩ : ∃ j0, j = j0 + 1 := ⟨j - 1, by omega⟩
      rw [List.take_succ_cons, List.count_cons] at h3
      simp [hb] at h3
      rw [List.getD_cons_succ] at h4
      have hrec := ih (bi + 1) r idx j0 h1 (by simp at h2; omega) (by omega) h4
      rw [hrec]
      congr 1
      omega

end SuccinctTrees

namespace SuccinctTrees

/-- `ones_for_node` counts the one bits of the node's segment. -/
theorem MinMax.onesForNode_eq (m : MinMax) {i : Nat} (hi : i < m.heapLen) :
    m.onesForNode i = ((m.seg i).count true : Int) := by
  unfold MinMax.onesForNode
  rw [(m.heap_summarizes i hi).1, (m.heap_summarizes i hi).2.1, excL_count (m.seg i)]
  have hc := count_length (m.seg i)
  omega

/-- `bits_for_node - ones_for_node` counts the zero bits of the segment. -/
theorem MinMax.zerosForNode_eq (m : MinMax) {i : Nat} (hi : i < m.heapLen) :
    ((m.heapGet i).bitsForNode : Int) - m.onesForNode i =
      ((m.seg i).count false : Int) := by
  rw [m.onesForNode_eq hi, (m.heap_summarizes i hi).2.1]
  have hc := count_length (m.seg i)
  omega

theorem MinMax.seg_getD (m : MinMax) (i : Nat) {k : Nat} (hk : k < (m.seg i).length) :
    (m.seg i).getD k false = m.bits.getD (m.lo i * m.blockSize + k) false := by
  have hsl := m.seg_length i
  have hk2 : m.lo i * m.blockSize + k < m.bits.length := by omega
  have hkw : k < m.wid i * m.blockSize := by omega
  unfold MinMax.seg
  rw [List.getD_eq_getElem?_getD, List.getD_eq_getElem?_getD]
  rw [List.getElem?_take, if_pos hkw, List.getElem?_drop]

theorem MinMax.select1Go_leaf (m : MinMax) {hi : Nat} (h : m.heapLen / 2 ≤ hi) (r : Int) :
    m.select1Go r hi = selScanGo true
      ((m.bits.drop ((hi - m.heapLen / 2) * m.blockSize)).take (m.heapGet hi).bitsForNode)
      ((hi - m.heapLen / 2) * m.blockSize) r ↑((hi - m.heapLen / 2) * m.blockSize) := by
  rw [MinMax.select1Go, if_pos h]

theorem MinMax.select1Go_left (m : MinMax) {hi : Nat} (h : ¬(m.heapLen / 2 ≤ hi)) {r : Int}
    (hr : r ≤ m.onesForNode (2 * hi + 1)) :
    m.select1Go r hi = m.select1Go r (2 * hi + 1) := by
  rw [MinMax.select1Go, if_neg h]
  simp only
  rw [if_pos hr]

theorem MinMax.select1Go_right (m : MinMax) {hi : Nat} (h : ¬(m.heapLen / 2 ≤ hi)) {r : Int}
    (hr : ¬(r ≤ m.onesForNode (2 * hi + 1))) :
    m.select1Go r hi = m.select1Go (r - m.onesForNode (2 * hi + 1)) (2 * hi + 2) := by
  rw [MinMax.select1Go, if_neg h]
  simp only
  rw [if_neg hr]

theorem MinMax.select0Go_leaf (m : MinMax) {hi : Nat} (h : m.heapLen / 2 ≤ hi) (r : Int) :
    m.select0Go r hi = selScanGo false
      ((m.bits.drop ((hi - m.heapLen / 2) * m.blockSize)).take (m.heapGet hi).bitsForNode)
      ((hi - m.heapLen / 2) * m.blockSize) r ↑((hi - m.heapLen / 2) * m.blockSize) := by
  rw [MinMax.select0Go, if_pos h]

theorem MinMax.select0Go_left (m : MinMax) {hi : Nat} (h : ¬(m.heapLen / 2 ≤ hi)) {r : Int}
    (hr : r ≤ ((m.heapGet (2 * hi + 1)).bitsForNode : Int) - m.onesForNode (2 * hi + 1)) :
    m.select0Go r hi = m.select0Go r (2 * hi + 1) := by
  rw [MinMax.select0Go, if_neg h]
  simp only
  rw [if_pos hr]

theorem MinMax.select0Go_right (m : MinMax) {hi : Nat} (h : ¬(m.heapLen / 2 ≤ hi)) {r : Int}
    (hr : ¬(r ≤ ((m.heapGet (2 * hi + 1)).bitsForNode : Int) - m.onesForNode (2 * hi + 1))) :
    m.select0Go r hi = m.select0Go
      (r - (((m.heapGet (2 * hi + 1)).bitsForNode : Int) - m.onesForNode (2 * hi + 1)))
      (2 * hi + 2) := by
  rw [MinMax.select0Go, if_neg h]
  simp only
  rw [if_neg hr]

/-- With no rank left to consume the recursion walks to the leftmost leaf
under the node and the scan leaves the block start untouched. -/
theorem MinMax.select1Go_nonpos (m : MinMax) :
    ∀ n hi, m.heapLen - hi ≤ n → hi < m.heapLen → ∀ r : Int, r ≤ 0 →
      m.select1Go r hi = ↑(m.lo hi * m.blockSize) := by
  intro n
  induction n with
  | zero =>
    intro hi hn hhi
    exact absurd hhi (by omega)
  | succ n ih =>
    intro hi hn hhi r hr
    by_cases hleaf : m.heapLen / 2 ≤ hi
    · rw [m.select1Go_leaf hleaf]
      rw [selScanGo_zero true _ _ _ _ hr]
      obtain ⟨hl, -⟩ := m.leaf_lo_wid (by rw [← m.heapLen_div2]; omega) hhi
      rw [m.heapLen_div2, hl]
    · have hhl2 := m.heapLen_div2
      have hhl : m.heapLen = 2 * m.maxBlocks - 1 := rfl
      have hlc : 2 * hi + 1 < m.heapLen := by omega
      have hno : (0 : Int) ≤ m.onesForNode (2 * hi + 1) := by
        rw [m.onesForNode_eq hlc]
        positivity
      rw [m.select1Go_left hleaf (by omega)]
      rw [ih (2 * hi + 1) (by omega) hlc r hr, m.lo_left]

theorem MinMax.select0Go_nonpos (m : MinMax) :
    ∀ n hi, m.heapLen - hi ≤ n → hi < m.heapLen → ∀ r : Int, r ≤ 0 →
      m.select0Go r hi = ↑(m.lo hi * m.blockSize) := by
  intro n
  induction n with
  | zero =>
    intro hi hn hhi
    exact absurd hhi (by omega)
  | succ n ih =>
    intro hi hn hhi r hr
    by_cases hleaf : m.heapLen / 2 ≤ hi
    · rw [m.select0Go_leaf hleaf]
      rw [selScanGo_zero false _ _ _ _ hr]
      obtain ⟨hl, -⟩ := m.leaf_lo_wid (by rw [← m.heapLen_div2]; omega) hhi
      rw [m.heapLen_div2, hl]
    · have hhl2 := m.heapLen_div2
      have hhl : m.heapLen = 2 * m.maxBlocks - 1 := rfl
      have hlc : 2 * hi + 1 < m.heapLen := by omega
      have hnz : (0 : Int) ≤ ((m.heapGet (2 * hi + 1)).bitsForNode : Int) -
          m.onesForNode (2 * hi + 1) := by
        rw [m.zerosForNode_eq hlc]
        positivity
      rw [m.select0Go_left hleaf (by omega)]
      rw [ih (2 * hi + 1) (by omega) hlc r hr, m.lo_left]

end SuccinctTrees

namespace SuccinctTrees

theorem take_min_eq (B' : List Bool) (w : Nat) : B'.take (min w B'.length) = B'.take w := by
  rcases le_total w B'.length with h | h
  · rw [Nat.min_eq_left h]
  · rw [Nat.min_eq_right h, List.take_length, List.take_of_length_le h]

theorem MinMax.seg_take_length (m : MinMax) (i : Nat) :
    (m.bits.drop (m.lo i * m.blockSize)).take ((m.seg i).length) = m.seg i := by
  unfold MinMax.seg
  rw [List.length_take]
  exact take_min_eq _ _

/-- `select_1_recursive` descends to the position `j` of the `r`-th one bit
counting from the current node's segment start, whenever `j` lies inside the
segment. -/
theorem MinMax.select1Go_spec (m : MinMax) (j : Nat)
    (hbit : m.bits.getD j false = true) :
    ∀ n hi, m.heapLen - hi ≤ n → hi < m.heapLen → ∀ r : Int, 1 ≤ r →
      ((m.bits.take j).count true : Int) -
        ((m.bits.take (m.lo hi * m.blockSize)).count true : Int) = r - 1 →
      m.lo hi * m.blockSize ≤ j →
      j < m.lo hi * m.blockSize + (m.seg hi).length →
      m.select1Go r hi = ↑j := by
  intro n
  induction n with
  | zero =>
    intro hi hn hhi
    exact absurd hhi (by omega)
  | succ n ih =>
    intro hi hn hhi r hr hcnt hjlo hjhi
    have hslhi := m.seg_length hi
    have hjL : j < m.bits.length := by omega
    by_cases hleaf : m.heapLen / 2 ≤ hi
    · rw [m.select1Go_leaf hleaf]
      obtain ⟨hl, hw⟩ := m.leaf_lo_wid (by rw [← m.heapLen_div2]; omega) hhi
      have hstart : (hi - m.heapLen / 2) * m.blockSize = m.lo hi * m.blockSize := by
        rw [m.heapLen_div2, hl]
      have hbfn : (m.heapGet hi).bitsForNode = (m.seg hi).length :=
        (m.heap_summarizes hi hhi).2.1
      rw [hstart, hbfn, m.seg_take_length]
      have hcsplit : (m.bits.take j).count true =
          (m.bits.take (m.lo hi * m.blockSize)).count true +
            ((m.bits.drop (m.lo hi * m.blockSize)).take (j - m.lo hi * m.blockSize)).count
              true := by
        conv_lhs => rw [show j = m.lo hi * m.blockSize + (j - m.lo hi * m.blockSize) from
          by omega]
        exact count_take_add _ _ _ _
      have hpref : (m.seg hi).take (j - m.lo hi * m.blockSize) =
          (m.bits.drop (m.lo hi * m.blockSize)).take (j - m.lo hi * m.blockSize) := by
        conv_lhs => rw [show m.seg hi =
          (m.bits.drop (m.lo hi * m.blockSize)).take (m.wid hi * m.blockSize) from rfl]
        rw [List.take_take]
        congr 1
        omega
      have hsbit : (m.seg hi).getD (j - m.lo hi * m.blockSize) false = true := by
        rw [m.seg_getD hi (by omega),
          show m.lo hi * m.blockSize + (j - m.lo hi * m.blockSize) = j from by omega]
        exact hbit
      have := selScanGo_spec true (m.seg hi) (m.lo hi * m.blockSize) r
        ↑(m.lo hi * m.blockSize) (j - m.lo hi * m.blockSize) hr (by omega)
        (by rw [hpref]; omega) hsbit
      rw [this]
      congr 1
      omega
    · have hhl2 := m.heapLen_div2
      have hhl : m.heapLen = 2 * m.maxBlocks - 1 := rfl
      have hmb := m.maxBlocks_pos
      have hint : hi < m.maxBlocks - 1 := by omega
      have hlc : 2 * hi + 1 < m.heapLen := by omega
      have hrc : 2 * hi + 2 < m.heapLen := by omega
      have hlolc : m.lo (2 * hi + 1) = m.lo hi := m.lo_left hi
      have hsplit := m.seg_split hint
      have hlensum : (m.seg hi).length =
          (m.seg (2 * hi + 1)).length + (m.seg (2 * hi + 2)).length := by
        rw [hsplit, List.length_append]
      have hsllc := m.seg_length (2 * hi + 1)
      rw [hlolc, m.wid_left] at hsllc
      have hno := m.onesForNode_eq hlc
      -- the left child's segment written as a prefix of the suffix at `lo hi`
      have hseglc : (m.bits.drop (m.lo hi * m.blockSize)).take
          ((m.seg (2 * hi + 1)).length) = m.seg (2 * hi + 1) := by
        have := m.seg_take_length (2 * hi + 1)
        rw [hlolc] at this
        exact this
      by_cases hql : j < m.lo hi * m.blockSize + (m.seg (2 * hi + 1)).length
      · -- descend left
        have hstep := count_take_succ true m.bits hjL
        rw [hbit, if_pos rfl] at hstep
        have hcsplit : (m.bits.take (j + 1)).count true =
            (m.bits.take (m.lo hi * m.blockSize)).count true +
              ((m.bits.drop (m.lo hi * m.blockSize)).take
                (j + 1 - m.lo hi * m.blockSize)).count true := by
          conv_lhs => rw [show j + 1 = m.lo hi * m.blockSize +
            (j + 1 - m.lo hi * m.blockSize) from by omega]
          exact count_take_add _ _ _ _
        have hmono : ((m.bits.drop (m.lo hi * m.blockSize)).take
            (j + 1 - m.lo hi * m.blockSize)).count true ≤
            ((m.bits.drop (m.lo hi * m.blockSize)).take
              ((m.seg (2 * hi + 1)).length)).count true :=
          count_take_le true _ (by omega)
        rw [hseglc] at hmono
        have hrle : r ≤ m.onesForNode (2 * hi + 1) := by
          rw [hno]
          omega
        rw [m.select1Go_left hleaf hrle]
        refine ih (2 * hi + 1) (by omega) hlc r hr ?_ ?_ ?_
        · rw [hlolc]
          exact hcnt
        · rw [hlolc]
          exact hjlo
        · rw [hlolc]
          exact hql
      · -- descend right
        push_neg at hql
        have hcsplit : (m.bits.take j).count true =
            (m.bits.take (m.lo hi * m.blockSize)).count true +
              ((m.bits.drop (m.lo hi * m.blockSize)).take
                (j - m.lo hi * m.blockSize)).count true := by
          conv_lhs => rw [show j = m.lo hi * m.blockSize +
            (j - m.lo hi * m.blockSize) from by omega]
          exact count_take_add _ _ _ _
        have hmono : ((m.bits.drop (m.lo hi * m.blockSize)).take
            ((m.seg (2 * hi + 1)).length)).count true ≤
            ((m.bits.drop (m.lo hi * m.blockSize)).take
              (j - m.lo hi * m.blockSize)).count true :=
          count_take_le true _ (by omega)
        rw [hseglc] at hmono
        have hrgt : ¬(r ≤ m.onesForNode (2 * hi + 1)) := by
          rw [hno]
          omega
        rw [m.select1Go_right hleaf hrgt]
        -- the right child's segment starts exactly where the left one ends
        have hlorc : m.lo (2 * hi + 2) * m.blockSize =
            m.lo hi * m.blockSize + m.wid hi / 2 * m.blockSize := by
          rw [m.lo_right, Nat.add_mul]
        have hup : m.lo hi * m.blockSize + (m.seg (2 * hi + 1)).length =
            min (m.lo (2 * hi + 2) * m.blockSize) m.bits.length := by
          rw [hlorc]
          omega
        have hlorcv : m.lo (2 * hi + 2) * m.blockSize =
            m.lo hi * m.blockSize + (m.seg (2 * hi + 1)).length := by
          rcases le_total (m.lo (2 * hi + 2) * m.blockSize) m.bits.length with h | h
          · rw [Nat.min_eq_left h] at hup
            omega
          · rw [Nat.min_eq_right h] at hup
            omega
        have hcrc : (m.bits.take (m.lo (2 * hi + 2) * m.blockSize)).count true =
            (m.bits.take (m.lo hi * m.blockSize)).count true +
              ((m.seg (2 * hi + 1)).count true) := by
          rw [hlorcv, count_take_add, hseglc]
        refine ih (2 * hi + 2) (by omega) hrc (r - m.onesForNode (2 * hi + 1))
          (by rw [hno]; omega) ?_ (by omega) (by omega)
        rw [hcrc, hno]
        push_cast
        omega
  done

end SuccinctTrees

namespace SuccinctTrees

/-- `select_0_recursive` descends to the position `j` of the `r`-th zero bit
counting from the current node's segment start, whenever `j` lies inside the
segment. -/
theorem MinMax.select0Go_spec (m : MinMax) (j : Nat)
    (hbit : m.bits.getD j false = false) :
    ∀ n hi, m.heapLen - hi ≤ n → hi < m.heapLen → ∀ r : Int, 1 ≤ r →
      ((m.bits.take j).count false : Int) -
        ((m.bits.take (m.lo hi * m.blockSize)).count false : Int) = r - 1 →
      m.lo hi * m.blockSize ≤ j →
      j < m.lo hi * m.blockSize + (m.seg hi).length →
      m.select0Go r hi = ↑j := by
  intro n
  induction n with
  | zero =>
    intro hi hn hhi
    exact absurd hhi (by omega)
  | succ n ih =>
    intro hi hn hhi r hr hcnt hjlo hjhi
    have hslhi := m.seg_length hi
    have hjL : j < m.bits.length := by omega
    by_cases hleaf : m.heapLen / 2 ≤ hi
    · rw [m.select0Go_leaf hleaf]
      obtain ⟨hl, hw⟩ := m.leaf_lo_wid (by rw [← m.heapLen_div2]; omega) hhi
      have hstart : (hi - m.heapLen / 2) * m.blockSize = m.lo hi * m.blockSize := by
        rw [m.heapLen_div2, hl]
      have hbfn : (m.heapGet hi).bitsForNode = (m.seg hi).length :=
        (m.heap_summarizes hi hhi).2.1
      rw [hstart, hbfn, m.seg_take_length]
      have hcsplit : (m.bits.take j).count false =
          (m.bits.take (m.lo hi * m.blockSize)).count false +
            ((m.bits.drop (m.lo hi * m.blockSize)).take (j - m.lo hi * m.blockSize)).count
              false := by
        conv_lhs => rw [show j = m.lo hi * m.blockSize + (j - m.lo hi * m.blockSize) from
          by omega]
        exact count_take_add _ _ _ _
      have hpref : (m.seg hi).take (j - m.lo hi * m.blockSize) =
          (m.bits.drop (m.lo hi * m.blockSize)).take (j - m.lo hi * m.blockSize) := by
        conv_lhs => rw [show m.seg hi =
          (m.bits.drop (m.lo hi * m.blockSize)).take (m.wid hi * m.blockSize) from rfl]
        rw [List.take_take]
        congr 1
        omega
      have hsbit : (m.seg hi).getD (j - m.lo hi * m.blockSize) false = false := by
        rw [m.seg_getD hi (by omega),
          show m.lo hi * m.blockSize + (j - m.lo hi * m.blockSize) = j from by omega]
        exact hbit
      have := selScanGo_spec false (m.seg hi) (m.lo hi * m.blockSize) r
        ↑(m.lo hi * m.blockSize) (j - m.lo hi * m.blockSize) hr (by omega)
        (by rw [hpref]; omega) hsbit
      rw [this]
      congr 1
      omega
    · have hhl2 := m.heapLen_div2
      have hhl : m.heapLen = 2 * m.maxBlocks - 1 := rfl
      have hmb := m.maxBlocks_pos
      have hint : hi < m.maxBlocks - 1 := by omega
      have hlc : 2 * hi + 1 < m.heapLen := by omega
      have hrc : 2 * hi + 2 < m.heapLen := by omega
      have hlolc : m.lo (2 * hi + 1) = m.lo hi := m.lo_left hi
      have hsplit := m.seg_split hint
      have hlensum : (m.seg hi).length =
          (m.seg (2 * hi + 1)).length + (m.seg (2 * hi + 2)).length := by
        rw [hsplit, List.length_append]
      have hsllc := m.seg_length (2 * hi + 1)
      rw [hlolc, m.wid_left] at hsllc
      have hnz := m.zerosForNode_eq hlc
      have hseglc : (m.bits.drop (m.lo hi * m.blockSize)).take
          ((m.seg (2 * hi + 1)).length) = m.seg (2 * hi + 1) := by
        have := m.seg_take_length (2 * hi + 1)
        rw [hlolc] at this
        exact this
      by_cases hql : j < m.lo hi * m.blockSize + (m.seg (2 * hi + 1)).length
      · -- descend left
        have hstep := count_take_succ false m.bits hjL
        rw [hbit, if_pos rfl] at hstep
        have hcsplit : (m.bits.take (j + 1)).count false =
            (m.bits.take (m.lo hi * m.blockSize)).count false +
              ((m.bits.drop (m.lo hi * m.blockSize)).take
                (j + 1 - m.lo hi * m.blockSize)).count false := by
          conv_lhs => rw [show j + 1 = m.lo hi * m.blockSize +
            (j + 1 - m.lo hi * m.blockSize) from by omega]
          exact count_take_add _ _ _ _
        have hmono : ((m.bits.drop (m.lo hi * m.blockSize)).take
            (j + 1 - m.lo hi * m.blockSize)).count false ≤
            ((m.bits.drop (m.lo hi * m.blockSize)).take
              ((m.seg (2 * hi + 1)).length)).count false :=
          count_take_le false _ (by omega)
        rw [hseglc] at hmono
        have hrle : r ≤ ((m.heapGet (2 * hi + 1)).bitsForNode : Int) -
            m.onesForNode (2 * hi + 1) := by
          rw [hnz]
          omega
        rw [m.select0Go_left hleaf hrle]
        refine ih (2 * hi + 1) (by omega) hlc r hr ?_ ?_ ?_
        · rw [hlolc]
          exact hcnt
        · rw [hlolc]
          exact hjlo
        · rw [hlolc]
          exact hql
      · -- descend right
        push_neg at hql
        have hcsplit : (m.bits.take j).count false =
            (m.bits.take (m.lo hi * m.blockSize)).count false +
              ((m.bits.drop (m.lo hi * m.blockSize)).take
                (j - m.lo hi * m.blockSize)).count false := by
          conv_lhs => rw [show j = m.lo hi * m.blockSize +
            (j - m.lo hi * m.blockSize) from by omega]
          exact count_take_add _ _ _ _
        have hmono : ((m.bits.drop (m.lo hi * m.blockSize)).take
            ((m.seg (2 * hi + 1)).length)).count false ≤
            ((m.bits.drop (m.lo hi * m.blockSize)).take
              (j - m.lo hi * m.blockSize)).count false :=
          count_take_le false _ (by omega)
        rw [hseglc] at hmono
        have hrgt : ¬(r ≤ ((m.heapGet (2 * hi + 1)).bitsForNode : Int) -
            m.onesForNode (2 * hi + 1)) := by
          rw [hnz]
          omega
        rw [m.select0Go_right hleaf hrgt]
        have hlorc : m.lo (2 * hi + 2) * m.blockSize =
            m.lo hi * m.blockSize + m.wid hi / 2 * m.blockSize := by
          rw [m.lo_right, Nat.add_mul]
        have hup : m.lo hi * m.blockSize + (m.seg (2 * hi + 1)).length =
            min (m.lo (2 * hi + 2) * m.blockSize) m.bits.length := by
          rw [hlorc]
          omega
        have hlorcv : m.lo (2 * hi + 2) * m.blockSize =
            m.lo hi * m.blockSize + (m.seg (2 * hi + 1)).length := by
          rcases le_total (m.lo (2 * hi + 2) * m.blockSize) m.bits.length with h | h
          · rw [Nat.min_eq_left h] at hup
            omega
          · rw [Nat.min_eq_right h] at hup
            omega
        have hcrc : (m.bits.take (m.lo (2 * hi + 2) * m.blockSize)).count false =
            (m.bits.take (m.lo hi * m.blockSize)).count false +
              ((m.seg (2 * hi + 1)).count false) := by
          rw [hlorcv, count_take_add, hseglc]
        refine ih (2 * hi + 2) (by omega) hrc
          (r - (((m.heapGet (2 * hi + 1)).bitsForNode : Int) - m.onesForNode (2 * hi + 1)))
          (by rw [hnz]; omega) ?_ (by omega) (by omega)
        rw [hcrc, hnz]
        push_cast
        omega

end SuccinctTrees

namespace SuccinctTrees

theorem nth_occ_exists (b : Bool) :
    ∀ (l : List Bool) (k : Nat), 1 ≤ k → k ≤ l.count b →
      ∃ j, j < l.length ∧ (l.take j).count b = k - 1 ∧ l.getD j false = b := by
  intro l
  induction l with
  | nil =>
    intro k h1 h2
    simp at h2
    omega
  | cons hd tl ih =>
    intro k h1 h2
    by_cases hhd : hd = b
    · by_cases hk1 : k = 1
      · exact ⟨0, by simp, by simp [hk1], by simpa using hhd⟩
      · have h2' : k - 1 ≤ tl.count b := by
          rw [List.count_cons] at h2
          simp [hhd] at h2
          omega
        obtain ⟨j, hj1, hj2, hj3⟩ := ih (k - 1) (by omega) h2'
        refine ⟨j + 1, by simpa using hj1, ?_, by simpa using hj3⟩
        rw [List.take_succ_cons, List.count_cons]
        simp [hhd]
        omega
    · have h2' : k ≤ tl.count b := by
        rw [List.count_cons] at h2
        simp [hhd] at h2
        omega
      obtain ⟨j, hj1, hj2, hj3⟩ := ih k h1 h2'
      refine ⟨j + 1, by simpa using hj1, ?_, by simpa using hj3⟩
      rw [List.take_succ_cons, List.count_cons]
      simpa [hhd] using hj2

theorem MinMax.heapLen_pos (m : MinMax) : 0 < m.heapLen := by
  have := m.maxBlocks_pos
  have h : m.heapLen = 2 * m.maxBlocks - 1 := rfl
  omega

theorem MinMax.seg_zero_len (m : MinMax) (hbs : 1 ≤ m.blockSize) :
    m.bits.length ≤ (m.seg 0).length := by
  have hs := m.seg_length 0
  rw [m.wid_zero, m.lo_zero] at hs
  have h1 := m.len_le_nb_mul hbs
  have h2 : m.numberOfBlocks * m.blockSize ≤ m.maxBlocks * m.blockSize :=
    Nat.mul_le_mul_right _ m.nb_le_mb
  omega

theorem MinMax.select1_zero (m : MinMax) : m.select1 0 = .ok 0 := by
  unfold MinMax.select1
  rw [if_neg (by omega)]
  have h1 := m.select1Go_nonpos m.heapLen 0 (by omega) m.heapLen_pos 0 (le_refl 0)
  rw [Nat.cast_zero, h1]
  simp [m.lo_zero]

theorem MinMax.select0_zero (m : MinMax) : m.select0 0 = .ok 0 := by
  unfold MinMax.select0
  rw [if_neg (by omega)]
  have h1 := m.select0Go_nonpos m.heapLen 0 (by omega) m.heapLen_pos 0 (le_refl 0)
  rw [Nat.cast_zero, h1]
  simp [m.lo_zero]

theorem MinMax.select1_ok (m : MinMax) (hbs : 1 ≤ m.blockSize) (k : Nat)
    (hk1 : 1 ≤ k) (hkg : k ≤ m.bits.length / 2) (hkc : k ≤ m.bits.count true) :
    ∃ j, m.select1 k = .ok j ∧ j < m.bits.length ∧
      (m.bits.take j).count true = k - 1 ∧ m.bits.getD j false = true := by
  obtain ⟨j, hj1, hj2, hj3⟩ := nth_occ_exists true m.bits k hk1 hkc
  have hseg0 := m.seg_zero_len hbs
  have hlo0 : m.lo 0 * m.blockSize = 0 := by rw [m.lo_zero, Nat.zero_mul]
  have hgo := m.select1Go_spec j hj3 m.heapLen 0 (by omega) m.heapLen_pos ↑k
    (by exact_mod_cast hk1) (by rw [hlo0]; simp; omega) (by omega) (by rw [hlo0]; omega)
  refine ⟨j, ?_, hj1, hj2, hj3⟩
  unfold MinMax.select1
  rw [if_neg (by omega), hgo]
  simp

theorem MinMax.select0_ok (m : MinMax) (hbs : 1 ≤ m.blockSize) (k : Nat)
    (hk1 : 1 ≤ k) (hkg : k ≤ m.bits.length / 2) (hkc : k ≤ m.bits.count false) :
    ∃ j, m.select0 k = .ok j ∧ j < m.bits.length ∧
      (m.bits.take j).count false = k - 1 ∧ m.bits.getD j false = false := by
  obtain ⟨j, hj1, hj2, hj3⟩ := nth_occ_exists false m.bits k hk1 hkc
  have hseg0 := m.seg_zero_len hbs
  have hlo0 : m.lo 0 * m.blockSize = 0 := by rw [m.lo_zero, Nat.zero_mul]
  have hgo := m.select0Go_spec j hj3 m.heapLen 0 (by omega) m.heapLen_pos ↑k
    (by exact_mod_cast hk1) (by rw [hlo0]; simp; omega) (by omega) (by rw [hlo0]; omega)
  refine ⟨j, ?_, hj1, hj2, hj3⟩
  unfold MinMax.select0
  rw [if_neg (by omega), hgo]
  simp

end SuccinctTrees

namespace SuccinctTrees

/-- C5 (corrected): `select_b(k)` fails iff `k > len/2` (the guard tests the
half-length, not the count of `b` bits); `k = 0` falls through to the
recursion and yields the success value `0`; and on sequences with total
excess zero (where `len/2` is the exact count of ones and of zeros), every
`1 ≤ k ≤ len/2` returns the smallest `i` with `rank_b(i) = k`. -/
theorem C5_select_amended (l : List Bool) (bs k : Nat) (hbs : 1 ≤ bs) :
    ((MinMax.mk l bs).select1 k = .error .notANode ↔ l.length / 2 < k) ∧
    ((MinMax.mk l bs).select0 k = .error .notANode ↔ l.length / 2 < k) ∧
    (k = 0 → (MinMax.mk l bs).select1 k = .ok 0 ∧ (MinMax.mk l bs).select0 k = .ok 0) ∧
    (excL l = 0 → 1 ≤ k → k ≤ l.length / 2 →
      (∃ j, (MinMax.mk l bs).select1 k = .ok j ∧ bioRank true l j = some k ∧
        ∀ i, i < j → bioRank true l i ≠ some k) ∧
      (∃ j, (MinMax.mk l bs).select0 k = .ok j ∧ bioRank false l j = some k ∧
        ∀ i, i < j → bioRank false l i ≠ some k)) := by
  have hbits : (MinMax.mk l bs).bits = l := rfl
  refine ⟨?_, ?_, ?_, ?_⟩
  · by_cases h : l.length / 2 < k <;> simp [MinMax.select1, h]
  · by_cases h : l.length / 2 < k <;> simp [MinMax.select0, h]
  · intro hk0
    subst hk0
    exact ⟨(MinMax.mk l bs).select1_zero, (MinMax.mk l bs).select0_zero⟩
  · intro hbal hk1 hk2
    have hcc := count_length l
    have hee := excL_count l
    have hc1 : l.count true = l.length / 2 := by omega
    have hc0 : l.count false = l.length / 2 := by omega
    constructor
    · obtain ⟨j, hok, hjl, hjc, hjb⟩ := (MinMax.mk l bs).select1_ok hbs k hk1 hk2
        (show k ≤ l.count true from by omega)
      rw [hbits] at hjl hjc hjb
      refine ⟨j, hok, ?_, ?_⟩
      · rw [bioRank, if_pos hjl]
        have hstep := count_take_succ true l hjl
        rw [hjb, if_pos rfl] at hstep
        congr 1
        omega
      · intro i hij hcontr
        rw [bioRank] at hcontr
        by_cases hil : i < l.length
        · rw [if_pos hil] at hcontr
          have hc2 : (l.take (i + 1)).count true = k := Option.some.inj hcontr
          have hmon : (l.take (i + 1)).count true ≤ (l.take j).count true :=
            count_take_le true l (by omega)
          omega
        · rw [if_neg hil] at hcontr
          exact Option.noConfusion hcontr
    · obtain ⟨j, hok, hjl, hjc, hjb⟩ := (MinMax.mk l bs).select0_ok hbs k hk1 hk2
        (show k ≤ l.count false from by omega)
      rw [hbits] at hjl hjc hjb
      refine ⟨j, hok, ?_, ?_⟩
      · rw [bioRank, if_pos hjl]
        have hstep := count_take_succ false l hjl
        rw [hjb, if_pos rfl] at hstep
        congr 1
        omega
      · intro i hij hcontr
        rw [bioRank] at hcontr
        by_cases hil : i < l.length
        · rw [if_pos hil] at hcontr
          have hc2 : (l.take (i + 1)).count false = k := Option.some.inj hcontr
          have hmon : (l.take (i + 1)).count false ≤ (l.take j).count false :=
            count_take_le false l (by omega)
          omega
        · rw [if_neg hil] at hcontr
          exact Option.noConfusion hcontr

/-- Concrete instantiation of `C5_select_amended` on the sequence 10 with
block size 1 and rank 1. -/
theorem C5_select_amended_witness :
    1 ≤ 1 ∧
    (((MinMax.mk [true, false] 1).select1 1 = .error .notANode ↔
        [true, false].length / 2 < 1) ∧
      ((MinMax.mk [true, false] 1).select0 1 = .error .notANode ↔
        [true, false].length / 2 < 1) ∧
      (1 = 0 → (MinMax.mk [true, false] 1).select1 1 = .ok 0 ∧
        (MinMax.mk [true, false] 1).select0 1 = .ok 0) ∧
      (excL [true, false] = 0 → 1 ≤ 1 → 1 ≤ [true, false].length / 2 →
        (∃ j, (MinMax.mk [true, false] 1).select1 1 = .ok j ∧
          bioRank true [true, false] j = some 1 ∧
          ∀ i, i < j → bioRank true [true, false] i ≠ some 1) ∧
        (∃ j, (MinMax.mk [true, false] 1).select0 1 = .ok j ∧
          bioRank false [true, false] j = some 1 ∧
          ∀ i, i < j → bioRank false [true, false] i ≠ some 1))) :=
  ⟨by decide, C5_select_amended [true, false] 1 1 (by decide)⟩

end SuccinctTrees

namespace SuccinctTrees

theorem find_range_least (p : Nat → Bool) :
    ∀ n : Nat, (∃ i, i < n ∧ p i = true) →
      ∃ y, (List.range n).find? p = some y ∧ y < n ∧ p y = true ∧
        ∀ i, i < y → p i = false := by
  intro n
  induction n with
  | zero =>
    rintro ⟨i, hi, -⟩
    exact absurd hi (by omega)
  | succ n ih =>
    rintro ⟨i, hi, hpi⟩
    by_cases hn : ∃ i, i < n ∧ p i = true
    · obtain ⟨y, hf, hy, hpy, hmin⟩ := ih hn
      refine ⟨y, ?_, by omega, hpy, hmin⟩
      rw [List.range_succ, List.find?_append, hf]
      rfl
    · push_neg at hn
      have hpn : p n = true := by
        have hin : i = n := by
          by_contra hne
          exact absurd hpi (by simpa using hn i (by omega))
        rwa [hin] at hpi
      have hnone : (List.range n).find? p = none := by
        rw [List.find?_eq_none]
        intro x hx
        simpa using hn x (List.mem_range.mp hx)
      refine ⟨n, ?_, by omega, hpn, fun j hj => by simpa using hn j hj⟩
      rw [List.range_succ, List.find?_append, hnone]
      simp [List.find?, hpn]

/-- `bioSelect` finds the least index with the requested rank whenever one
exists below the length. -/
theorem bioSelect_spec (b : Bool) (l : List Bool) (k : Nat)
    (hex : ∃ i, i < l.length ∧ (l.take (i + 1)).count b = k) :
    ∃ y, bioSelect b l k = some y ∧ y < l.length ∧ (l.take (y + 1)).count b = k ∧
      ∀ i, i < y → (l.take (i + 1)).count b ≠ k := by
  obtain ⟨i, hi, hpi⟩ := hex
  obtain ⟨y, hf, hy, hpy, hmin⟩ := find_range_least
    (fun i => decide ((l.take (i + 1)).count b = k)) l.length
    ⟨i, hi, by simpa using hpi⟩
  refine ⟨y, ?_, hy, by simpa using hpy, fun j hj => by simpa using hmin j hj⟩
  rw [bioSelect]
  exact hf

/-- The least index attaining a positive rank carries a `b` bit. -/
theorem rank_select_bit (b : Bool) (l : List Bool) (k y : Nat) (hk : 1 ≤ k)
    (hy : y < l.length) (hcnt : (l.take (y + 1)).count b = k)
    (hmin : ∀ i, i < y → (l.take (i + 1)).count b ≠ k) : l.getD y false = b := by
  by_contra hne
  have hstep := count_take_succ b l hy
  rw [if_neg hne] at hstep
  rcases Nat.eq_zero_or_pos y with h0 | h1
  · subst h0
    simp at hstep hcnt
    omega
  · have hm := hmin (y - 1) (by omega)
    rw [show y - 1 + 1 = y from by omega] at hm
    omega

theorem count_le_total (b : Bool) (l : List Bool) (a : Nat) :
    (l.take a).count b ≤ l.count b :=
  (List.take_sublist _ _).count_le b

/-- The witness needed by `bioSelect`: each rank `1 ≤ k ≤ count` is attained. -/
theorem rank_attained (b : Bool) (l : List Bool) (k : Nat) (hk : 1 ≤ k)
    (hkc : k ≤ l.count b) :
    ∃ i, i < l.length ∧ (l.take (i + 1)).count b = k := by
  obtain ⟨j, hj1, hj2, hj3⟩ := nth_occ_exists b l k hk hkc
  refine ⟨j, hj1, ?_⟩
  have hstep := count_take_succ b l hj1
  rw [hj3, if_pos rfl] at hstep
  omega

end SuccinctTrees

namespace SuccinctTrees

/-- On a sequence satisfying the excess invariant the first bit is a one,
the last a zero, and ones and zeros are equinumerous. -/
theorem valid_facts (l : List Bool) (hbal : excL l = 0)
    (hpos : ∀ i, i < l.length - 1 → 1 ≤ exc l (i + 1)) (hlen : 2 ≤ l.length) :
    l.getD 0 false = true ∧ l.getD (l.length - 1) false = false ∧
      l.count true = l.count false := by
  have hc := count_length l
  have he := excL_count l
  refine ⟨?_, ?_, by omega⟩
  · have h1 : 1 ≤ exc l 1 := hpos 0 (by omega)
    have hs := exc_succ l 0 (by omega)
    rw [exc_zero] at hs
    cases hgb : l.getD 0 false
    · rw [hgb] at hs
      simp [bDelta] at hs
      omega
    · rfl
  · have hlast : exc l l.length = 0 := by rw [exc_length, hbal]
    have hprev : 1 ≤ exc l (l.length - 1) := by
      have := hpos (l.length - 2) (by omega)
      rw [show l.length - 2 + 1 = l.length - 1 from by omega] at this
      exact this
    have hs := exc_succ l (l.length - 1) (by omega)
    rw [show l.length - 1 + 1 = l.length from by omega] at hs
    cases hgb : l.getD (l.length - 1) false
    · rfl
    · rw [hgb] at hs
      simp [bDelta] at hs
      omega

theorem valid_b1 (l : List Bool) (hbal : excL l = 0)
    (hpos : ∀ i, i < l.length - 1 → 1 ≤ exc l (i + 1)) (hlen : 3 ≤ l.length) :
    l.getD 1 false = true := by
  have hb0 := (valid_facts l hbal hpos (by omega)).1
  have h2 : 1 ≤ exc l 2 := hpos 1 (by omega)
  have h1 : exc l 1 = 1 := by
    have hs := exc_succ l 0 (by omega)
    rw [exc_zero, hb0] at hs
    simp [bDelta] at hs
    omega
  have hs := exc_succ l 1 (by omega)
  cases hgb : l.getD 1 false
  · rw [hgb] at hs
    simp [bDelta] at hs
    omega
  · rfl

/-- `prev_0` succeeds on any in-range input when the sequence starts with a
one bit, landing at position `0` or on a zero bit at or before the input. -/
theorem louds_prev0_some {L : Type} (t : LOUDSTree L)
    (hb0 : t.bits.getD 0 false = true) {y : Nat} (hy : y < t.bits.length) :
    ∃ p, t.prev0 y = some p ∧ p ≤ y ∧
      (p = 0 ∨ t.bits.getD p false = false) := by
  have hrank : bioRank false t.bits y = some ((t.bits.take (y + 1)).count false) := by
    rw [bioRank, if_pos hy]
  by_cases hry : (t.bits.take (y + 1)).count false = 0
  · have hc01 : (t.bits.take (0 + 1)).count false = 0 := by
      have hstep := count_take_succ false t.bits (show 0 < t.bits.length by omega)
      rw [hb0] at hstep
      simp at hstep
      simpa using hstep
    obtain ⟨p, hsel, hplen, hpc, hpmin⟩ :=
      bioSelect_spec false t.bits 0 ⟨0, by omega, hc01⟩
    have hp0 : p = 0 := by
      by_contra hne
      exact hpmin 0 (by omega) hc01
    refine ⟨p, ?_, by omega, Or.inl hp0⟩
    rw [LOUDSTree.prev0]
    simp only [hrank, hry]
    exact hsel
  · have hry1 : 1 ≤ (t.bits.take (y + 1)).count false := by omega
    obtain ⟨p, hsel, hplen, hpc, hpmin⟩ := bioSelect_spec false t.bits _
      (rank_attained false t.bits _ hry1 (count_le_total _ _ _))
    have hbp := rank_select_bit false t.bits _ p hry1 hplen hpc hpmin
    have hple : p ≤ y := by
      by_contra hgt
      exact hpmin y (by omega) rfl
    refine ⟨p, ?_, hple, Or.inr hbp⟩
    rw [LOUDSTree.prev0]
    simp only [hrank]
    exact hsel

/-- On a sequence satisfying the excess invariant, `parent` of any index
`≥ 2` succeeds, and the returned position passes `is_leaf`'s node test. -/
theorem louds_parent_ok {L : Type} (t : LOUDSTree L)
    (hb0 : t.bits.getD 0 false = true) (hb1 : t.bits.getD 1 false = true)
    (hcnt : t.bits.count true = t.bits.count false)
    {x : Nat} (hx2 : 2 ≤ x) (hxlen : x < t.bits.length)
    (hr0pos : 1 ≤ (t.bits.take (x + 1)).count false) :
    ∃ pp, t.parent x = some (.ok pp) ∧ 1 ≤ pp ∧ pp < t.bits.length ∧
      ¬(t.bits.getD pp false = false ∧ t.bits.getD (pp - 1) false = true) := by
  have hr0le : (t.bits.take (x + 1)).count false ≤ t.bits.count true := by
    rw [hcnt]
    exact count_le_total _ _ _
  obtain ⟨y, hysel, hylen, hyc, hymin⟩ := bioSelect_spec true t.bits _
    (rank_attained true t.bits _ hr0pos hr0le)
  have hby := rank_select_bit true t.bits _ y hr0pos hylen hyc hymin
  obtain ⟨p, hpsel, hple, hpc⟩ := louds_prev0_some t hb0 hylen
  have hpplen : p + 1 < t.bits.length := by
    rcases hpc with h0 | hbp
    · omega
    · have hpy : p ≠ y := by
        intro he
        rw [he, hby] at hbp
        exact Bool.noConfusion hbp
      omega
  have hrej : ¬(t.bits.getD (p + 1) false = false ∧ t.bits.getD (p + 1 - 1) false = true) := by
    rintro ⟨hA, hB⟩
    rcases hpc with h0 | hbp
    · rw [h0] at hA
      rw [hA] at hb1
      exact Bool.noConfusion hb1
    · rw [show p + 1 - 1 = p from by omega, hbp] at hB
      exact Bool.noConfusion hB
  have hrank : bioRank false t.bits x = some ((t.bits.take (x + 1)).count false) := by
    rw [bioRank, if_pos hxlen]
  refine ⟨p + 1, ?_, by omega, hpplen, hrej⟩
  rw [LOUDSTree.parent, if_neg (by omega), if_neg (by omega)]
  simp only [hrank, hysel, hpsel]

end SuccinctTrees

namespace SuccinctTrees

/-- `degree` succeeds at any position that passes `is_leaf`'s node test, on a
sequence whose last bit is a zero. -/
theorem louds_degree_ok {L : Type} (t : LOUDSTree L)
    (hblast : t.bits.getD (t.bits.length - 1) false = false)
    {pp : Nat} (hpp1 : 1 ≤ pp) (hpplen : pp < t.bits.length)
    (hrej : ¬(t.bits.getD pp false = false ∧ t.bits.getD (pp - 1) false = true)) :
    ∃ d, t.degree pp = .ok d := by
  have hleaf : t.isLeaf pp = .ok (!t.bits.getD pp false) := by
    rw [LOUDSTree.isLeaf, if_neg ?_]
    rintro (h | h | h)
    · omega
    · omega
    · exact hrej h
  cases hgb : t.bits.getD pp false
  · refine ⟨0, ?_⟩
    rw [LOUDSTree.degree]
    simp only [hleaf, hgb, Bool.not_false]
  · have hppne : pp ≠ t.bits.length - 1 := by
      intro he
      rw [he, hblast] at hgb
      exact Bool.noConfusion hgb
    have hstep := count_take_succ false t.bits (show t.bits.length - 1 < t.bits.length
      by omega)
    rw [hblast, if_pos rfl] at hstep
    have hcl : t.bits.count false = (t.bits.take (t.bits.length - 1)).count false + 1 := by
      calc t.bits.count false
          = (t.bits.take (t.bits.length - 1 + 1)).count false := by
            rw [show t.bits.length - 1 + 1 = t.bits.length from by omega, List.take_length]
        _ = (t.bits.take (t.bits.length - 1)).count false + 1 := hstep
    have hr : (t.bits.take (pp + 1)).count false + 1 ≤ t.bits.count false := by
      have hmon : (t.bits.take (pp + 1)).count false ≤
          (t.bits.take (t.bits.length - 1)).count false :=
        count_take_le false _ (by omega)
      omega
    obtain ⟨n0, hn0sel, -, -, -⟩ := bioSelect_spec false t.bits
      ((t.bits.take (pp + 1)).count false + 1)
      (rank_attained false t.bits _ (by omega) (by omega))
    have hrankpp : bioRank false t.bits pp =
        some ((t.bits.take (pp + 1)).count false) := by
      rw [bioRank, if_pos hpplen]
    refine ⟨n0 - pp, ?_⟩
    rw [LOUDSTree.degree]
    simp only [hleaf, hgb, Bool.not_true, LOUDSTree.next0, hrankpp, hn0sel]

/-- `child_rank` succeeds at any index `≥ 2` preceded by a zero bit, on a
sequence satisfying the excess invariant. -/
theorem louds_childRank_some {L : Type} (t : LOUDSTree L)
    (hb0 : t.bits.getD 0 false = true)
    (hcnt : t.bits.count true = t.bits.count false)
    {x : Nat} (hx2 : 2 ≤ x) (hxlen : x < t.bits.length)
    (hbxm : t.bits.getD (x - 1) false = false) :
    ∃ cr, t.childRank x = some cr := by
  have hxm1len : x - 1 < t.bits.length := by omega
  have hr0 : 1 ≤ (t.bits.take (x - 1 + 1)).count false := by
    have hstep := count_take_succ false t.bits hxm1len
    rw [hbxm, if_pos rfl] at hstep
    omega
  have hr0le : (t.bits.take (x - 1 + 1)).count false ≤ t.bits.count true := by
    rw [hcnt]
    exact count_le_total _ _ _
  obtain ⟨y, hysel, hylen, -, -⟩ := bioSelect_spec true t.bits _
    (rank_attained true t.bits _ hr0 hr0le)
  obtain ⟨p, hpsel, -, -⟩ := louds_prev0_some t hb0 hylen
  have hrank : bioRank false t.bits (x - 1) =
      some ((t.bits.take (x - 1 + 1)).count false) := by
    rw [bioRank, if_pos hxm1len]
  refine ⟨y - p, ?_⟩
  rw [LOUDSTree.childRank, if_neg (by omega)]
  simp only [hrank, hysel, hpsel]

end SuccinctTrees

namespace SuccinctTrees

/-- C10 (corrected): facades built by `from_bitvec` carry an empty label
list, so `child_label` never returns a label.  The BP facade fails with
`NoLabel` at every in-range index; the LOUDS facade fails with `NoLabel` at
every node handle (position `1` or a position after a zero bit) of a
sequence satisfying the excess invariant — on degenerate accepted sequences
an earlier index-check error can surface instead, as the counterexample
shows. -/
theorem C10_no_label (L : Type) (l : List Bool) :
    (∀ (t : BPTree L) (x : Nat), BPTree.fromBitvec l = .ok t → x < l.length →
      t.childLabel x = some (.error .noLabel)) ∧
    (∀ (t : LOUDSTree L) (x : Nat), LOUDSTree.fromBitvec l = .ok t →
      excL l = 0 → (∀ i, i < l.length - 1 → 1 ≤ exc l (i + 1)) →
      1 ≤ x → x < l.length → (x = 1 ∨ l.getD (x - 1) false = false) →
      t.childLabel x = some (.error .noLabel)) := by
  constructor
  · intro t x hok hx
    have ht : t = ⟨[], l⟩ := by
      rw [BPTree.fromBitvec] at hok
      by_cases hv : isValid l = true
      · rw [if_pos hv] at hok
        exact (Except.ok.inj hok).symm
      · rw [if_neg hv] at hok
        exact Except.noConfusion hok
    subst ht
    have h1 : BPTree.isValidIndex (⟨[], l⟩ : BPTree L) x = .ok true := by
      rw [BPTree.isValidIndex, if_neg (by simp; omega)]
    have h2 : BPTree.preRank (⟨[], l⟩ : BPTree L) x =
        some ((l.take (x + 1)).count true) := by
      rw [BPTree.preRank]
      show bioRank true l x = _
      rw [bioRank, if_pos hx]
    rw [BPTree.childLabel]
    simp only [h1, h2, List.getElem?_nil]
  · intro t x hok hbal hpos h1x hxlen hhandle
    have ht : t = ⟨[], l⟩ := by
      rw [LOUDSTree.fromBitvec] at hok
      by_cases hv : isValid l = true
      · rw [if_pos hv] at hok
        exact (Except.ok.inj hok).symm
      · rw [if_neg hv] at hok
        exact Except.noConfusion hok
    subst ht
    obtain ⟨hb0, hblast, hcl⟩ := valid_facts l hbal hpos (by omega)
    rcases hhandle with hx1 | hbxm
    · subst hx1
      have hc01 : (l.take (0 + 1)).count true = 1 := by
        have hstep := count_take_succ true l (show 0 < l.length by omega)
        rw [hb0, if_pos rfl] at hstep
        simpa using hstep
      have hrank0 : bioRank true l 0 = some 1 := by
        rw [bioRank, if_pos (by omega), hc01]
      rw [LOUDSTree.childLabel]
      simp [hrank0]
    · have hx2 : 2 ≤ x := by
        rcases Nat.lt_or_ge x 2 with h | h
        · exfalso
          have hx1 : x = 1 := by omega
          rw [hx1] at hbxm
          simp only [show (1 : Nat) - 1 = 0 from rfl] at hbxm
          rw [hb0] at hbxm
          exact Bool.noConfusion hbxm
        · exact h
      have hb1 := valid_b1 l hbal hpos (by omega)
      have hr0pos : 1 ≤ (l.take (x + 1)).count false := by
        have hs := count_take_succ false l (show x - 1 < l.length by omega)
        rw [hbxm, if_pos rfl] at hs
        have hmon := count_take_le false l (show x - 1 + 1 ≤ x + 1 by omega)
        omega
      obtain ⟨pp, hpar, hpp1, hpplen, hrej⟩ :=
        louds_parent_ok (⟨[], l⟩ : LOUDSTree L) hb0 hb1 hcl hx2 hxlen hr0pos
      obtain ⟨d, hdeg⟩ := louds_degree_ok (⟨[], l⟩ : LOUDSTree L) hblast hpp1 hpplen hrej
      obtain ⟨cr, hcr⟩ := louds_childRank_some (⟨[], l⟩ : LOUDSTree L) hb0 hcl hx2
        hxlen hbxm
      have hrankpp : bioRank true l pp = some ((l.take (pp + 1)).count true) := by
        rw [bioRank, if_pos hpplen]
      have hxne : ¬(x = 1) := by omega
      by_cases hd1 : d = 1
      · rw [LOUDSTree.childLabel]
        simp [hxne, hpar, hdeg, hd1, hrankpp]
      · rw [LOUDSTree.childLabel]
        simp [hxne, hpar, hdeg, hd1, hcr, hrankpp]

/-- Concrete instantiation of `C10_no_label` on the sequence 1100 for both
facades at handle 1. -/
theorem C10_no_label_witness :
    (BPTree.fromBitvec [true, true, false, false] =
        .ok (⟨[], [true, true, false, false]⟩ : BPTree Nat) ∧
      (1 : Nat) < [true, true, false, false].length ∧
      LOUDSTree.fromBitvec [true, true, false, false] =
        .ok (⟨[], [true, true, false, false]⟩ : LOUDSTree Nat) ∧
      excL [true, true, false, false] = 0 ∧
      (∀ i, i < [true, true, false, false].length - 1 →
        1 ≤ exc [true, true, false, false] (i + 1))) ∧
    (⟨[], [true, true, false, false]⟩ : BPTree Nat).childLabel 1 =
      some (.error .noLabel) ∧
    (⟨[], [true, true, false, false]⟩ : LOUDSTree Nat).childLabel 1 =
      some (.error .noLabel) :=
  ⟨⟨rfl, by decide, rfl, by decide, by decide⟩,
    (C10_no_label Nat [true, true, false, false]).1 _ 1 rfl (by decide),
    (C10_no_label Nat [true, true, false, false]).2 _ 1 rfl (by decide) (by decide)
      (by decide) (by decide) (Or.inl rfl)⟩

end SuccinctTrees
